import Mathlib

/-!
OSStore: the ordered list storage of `src/shared/store_op.c`.

A shallow embedding of the key-sorted, doubly-linked store and a verification
of its contract.

* C strings are lists of bytes (`List Nat`), the bytes before the terminating
  NUL; `CStr` says that every byte is in `1..255`.
* Node pointers are `Option Nat`: `none` is `NULL`, `some p` is the address of
  the `p`-th node that `calloc` handed out.  The node heap is a list indexed by
  address.
* A store handle (`OSStore *list`) is an `Option Mem`: `none` is `NULL`,
  `some m` is a live store together with the nodes allocated for it.
* An operation that dereferences an invalid pointer, or whose loop would not
  terminate, has result `none`.  Every `while(list->cur_node)` loop is run for
  at most `heap.length + 1` iterations: the loops do not change any link
  before they exit, so a scan that is still running after that many steps has
  come back to a node it already visited and the C loop would run forever.
* `calloc` is modelled by its outcome: the `calloc_ok` argument of
  `OSStore_Create` and `OSStore_Put` says whether the allocation succeeded; a
  successful allocation of a node appends it to the heap.
-/

namespace StoreOp

/-! ## C library functions -/

/-- A well-formed C string body: no embedded NUL, every byte an `unsigned char`. -/
def CStr (s : List Nat) : Prop := ∀ b ∈ s, 0 < b ∧ b < 256

instance : DecidablePred CStr := fun s => by unfold CStr; infer_instance

/-- The C library `strlen`: number of bytes before the terminating NUL. -/
def strlen (s : List Nat) : Nat := s.length

/-- The C library `strcmp` on the buffers `s ++ [0]` and `t ++ [0]`: the
difference of the first pair of differing bytes (as `unsigned char`), `0` when
both strings end together.  Callers only use the sign. -/
def strcmp : List Nat → List Nat → Int
  | [], [] => 0
  | [], b :: _ => 0 - (b : Int)
  | a :: _, [] => (a : Int) - 0
  | a :: s, b :: t =>
    if a ≠ b then (a : Int) - (b : Int)
    else if a = 0 then 0
    else strcmp s t

/-- The C library `strncmp`: as `strcmp`, but at most `n` bytes are compared. -/
def strncmp : List Nat → List Nat → Nat → Int
  | _, _, 0 => 0
  | s, t, n + 1 =>
    let a := s.headD 0
    let b := t.headD 0
    if a ≠ b then (a : Int) - (b : Int)
    else if a = 0 then 0
    else strncmp s.tail t.tail n

/-- The C library `tolower` in the C locale: `A`..`Z` map to `a`..`z`. -/
def tolower (c : Nat) : Nat := if 65 ≤ c ∧ c ≤ 90 then c + 32 else c

/-- The POSIX `strncasecmp` in the C locale: `strncmp` on the lower-cased bytes. -/
def strncasecmp : List Nat → List Nat → Nat → Int
  | _, _, 0 => 0
  | s, t, n + 1 =>
    let a := tolower (s.headD 0)
    let b := tolower (t.headD 0)
    if a ≠ b then (a : Int) - (b : Int)
    else if a = 0 then 0
    else strncasecmp s.tail t.tail n

/-! ## Data model -/

/-- Modelled from the spec: the declaration of `OSStoreNode` (a header that is
not part of the sources).  The fields are the ones `store_op.c` reads and
writes: the two links, the key with its cached length, and the opaque `data`
pointer (`0` is `NULL`). -/
structure OSStoreNode where
  next : Option Nat
  prev : Option Nat
  key : List Nat
  key_size : Nat
  data : Nat
  deriving DecidableEq

/-- Modelled from the spec: the declaration of `OSStore` (a header that is not
part of the sources).  The fields are the ones `OSStore_Create` initialises.
`currently_size` and `max_size` are C `int`s; `free_data_function` is a
function pointer (`0` is `NULL`). -/
structure OSStore where
  first_node : Option Nat
  last_node : Option Nat
  cur_node : Option Nat
  currently_size : Int
  max_size : Int
  free_data_function : Nat
  deriving DecidableEq

/-- The memory a store handle points to: the store record itself and the nodes
allocated for it; the node at address `p` is `heap[p]`. -/
structure Mem where
  heap : List OSStoreNode
  list : OSStore
  deriving DecidableEq

/-- The assignment `list->cur_node = c`. -/
def Mem.setCur (m : Mem) (c : Option Nat) : Mem :=
  { m with list := { m.list with cur_node := c } }

/-- The assignment `p->next = v` through a node pointer; `none` when `p` is not
the address of an allocated node. -/
def Mem.setNext (m : Mem) (p : Nat) (v : Option Nat) : Option Mem :=
  match m.heap[p]? with
  | none => none
  | some n => some { m with heap := m.heap.set p { n with next := v } }

/-- The assignment `p->prev = v` through a node pointer; `none` when `p` is not
the address of an allocated node. -/
def Mem.setPrev (m : Mem) (p : Nat) (v : Option Nat) : Option Mem :=
  match m.heap[p]? with
  | none => none
  | some n => some { m with heap := m.heap.set p { n with prev := v } }

/-- The node `OSStore_Put` sets up right after `calloc`: both links `NULL`, and
`data`, `key` and `key_size = strlen(key)` filled in. -/
def OSStore_Put_newnode (key : List Nat) (data : Nat) : OSStoreNode :=
  { next := none, prev := none, key := key, key_size := strlen key, data := data }

/-! ## Operations -/

/-- Source function `OSStore_Create`: a fresh empty store, or `NULL` when
`calloc` fails. -/
def OSStore_Create (calloc_ok : Bool) : Option Mem :=
  if !calloc_ok then none
  else some
    { heap := []
      list :=
        { first_node := none
          last_node := none
          cur_node := none
          currently_size := 0
          max_size := 0
          free_data_function := 0 } }

/-- Source function `OSStore_SetMaxSize`: returns `0` on a `NULL` store or when
`max_size <= 1`, else records `max_size` and returns `1`. -/
def OSStore_SetMaxSize (list : Option Mem) (max_size : Int) : Int × Option Mem :=
  match list with
  | none => (0, none)
  | some m =>
    if max_size ≤ 1 then (0, some m)
    else (1, some { m with list := { m.list with max_size := max_size } })

/-- Source function `OSStore_SetFreeDataPointer`: returns `0` on a `NULL` store,
else records the function pointer and returns `1`. -/
def OSStore_SetFreeDataPointer (list : Option Mem) (free_data_function : Nat) :
    Int × Option Mem :=
  match list with
  | none => (0, none)
  | some m =>
    (1, some { m with list := { m.list with free_data_function := free_data_function } })

/-- The `while(list->cur_node)` loop of `OSStore_GetPosition`, `pos` being the
loop counter. -/
def OSStore_GetPosition_loop (key : List Nat) : Nat → Int → Mem → Option (Int × Mem)
  | 0, _, _ => none
  | fuel + 1, pos, m =>
    match m.list.cur_node with
    | none => some (0, m)
    | some cur =>
      match m.heap[cur]? with
      | none => none
      | some c =>
        let chk_rc := strcmp c.key key
        if chk_rc ≥ 0 then
          if chk_rc = 0 then some (pos, m)
          else some (0, m)
        else OSStore_GetPosition_loop key fuel (pos + 1) (m.setCur c.next)

/-- Source function `OSStore_GetPosition`: the 1-based position of `key`, `0`
if not present. -/
def OSStore_GetPosition (list : Option Mem) (key : List Nat) : Option (Int × Mem) :=
  match list with
  | none => none
  | some m =>
    OSStore_GetPosition_loop key (m.heap.length + 1) 1 (m.setCur m.list.first_node)

/-- The `while(list->cur_node)` loop of `OSStore_Get`. -/
def OSStore_Get_loop (key : List Nat) : Nat → Mem → Option (Nat × Mem)
  | 0, _ => none
  | fuel + 1, m =>
    match m.list.cur_node with
    | none => some (0, m)
    | some cur =>
      match m.heap[cur]? with
      | none => none
      | some c =>
        let chk_rc := strcmp c.key key
        if chk_rc ≥ 0 then
          if chk_rc = 0 then some (c.data, m)
          else some (0, m)
        else OSStore_Get_loop key fuel (m.setCur c.next)

/-- Source function `OSStore_Get`: the `data` pointer stored under `key`, `NULL`
(`0`) if not present. -/
def OSStore_Get (list : Option Mem) (key : List Nat) : Option (Nat × Mem) :=
  match list with
  | none => none
  | some m => OSStore_Get_loop key (m.heap.length + 1) (m.setCur m.list.first_node)

/-- The `while(list->cur_node)` loop of `OSStore_Check`. -/
def OSStore_Check_loop (key : List Nat) : Nat → Mem → Option (Int × Mem)
  | 0, _ => none
  | fuel + 1, m =>
    match m.list.cur_node with
    | none => some (0, m)
    | some cur =>
      match m.heap[cur]? with
      | none => none
      | some c =>
        let chk_rc := strcmp c.key key
        if chk_rc ≥ 0 then
          if chk_rc = 0 then some (1, m)
          else some (0, m)
        else OSStore_Check_loop key fuel (m.setCur c.next)

/-- Source function `OSStore_Check`: `1` if `key` is present, else `0`. -/
def OSStore_Check (list : Option Mem) (key : List Nat) : Option (Int × Mem) :=
  match list with
  | none => none
  | some m => OSStore_Check_loop key (m.heap.length + 1) (m.setCur m.list.first_node)

/-- The `while(list->cur_node)` loop of `OSStore_NCheck`. -/
def OSStore_NCheck_loop (key : List Nat) : Nat → Mem → Option (Int × Mem)
  | 0, _ => none
  | fuel + 1, m =>
    match m.list.cur_node with
    | none => some (0, m)
    | some cur =>
      match m.heap[cur]? with
      | none => none
      | some c =>
        let chk_rc := strncmp c.key key c.key_size
        if chk_rc ≥ 0 then
          if chk_rc = 0 then some (1, m)
          else some (0, m)
        else OSStore_NCheck_loop key fuel (m.setCur c.next)

/-- Source function `OSStore_NCheck`: the ordered scan with `strncmp` bounded by
the stored key's `key_size`. -/
def OSStore_NCheck (list : Option Mem) (key : List Nat) : Option (Int × Mem) :=
  match list with
  | none => none
  | some m => OSStore_NCheck_loop key (m.heap.length + 1) (m.setCur m.list.first_node)

/-- The `while(list->cur_node)` loop of `OSStore_NCaseCheck`. -/
def OSStore_NCaseCheck_loop (key : List Nat) : Nat → Mem → Option (Int × Mem)
  | 0, _ => none
  | fuel + 1, m =>
    match m.list.cur_node with
    | none => some (0, m)
    | some cur =>
      match m.heap[cur]? with
      | none => none
      | some c =>
        let chk_rc := strncasecmp c.key key c.key_size
        if chk_rc = 0 then some (1, m)
        else OSStore_NCaseCheck_loop key fuel (m.setCur c.next)

/-- Source function `OSStore_NCaseCheck`: the full scan with `strncasecmp`
bounded by the stored key's `key_size`. -/
def OSStore_NCaseCheck (list : Option Mem) (key : List Nat) : Option (Int × Mem) :=
  match list with
  | none => none
  | some m => OSStore_NCaseCheck_loop key (m.heap.length + 1) (m.setCur m.list.first_node)

/-- Source function `OSStore_Delete`: returns at once, whatever the handle and
the key. -/
def OSStore_Delete (list : Option Mem) (_key : List Nat) : Option Mem := list

/-- The splice inside the loop of `OSStore_Put`, executed when the key at
`list->cur_node` (whose value is `cur`) is above the new key: the new node is
linked in front of `cur`. -/
def OSStore_Put_link (newnode cur : Nat) (m : Mem) : Option Mem := do
  let c ← m.heap[cur]?
  -- list->cur_node->prev->next = newnode, or list->first_node = newnode
  let m1 ← match c.prev with
    | some pv => m.setNext pv (some newnode)
    | none => some { m with list := { m.list with first_node := some newnode } }
  -- newnode->prev = list->cur_node->prev
  let c1 ← m1.heap[cur]?
  let m2 ← m1.setPrev newnode c1.prev
  -- list->cur_node->prev = newnode
  let m3 ← m2.setPrev cur (some newnode)
  -- newnode->next = list->cur_node
  m3.setNext newnode (some cur)

/-- The `while(list->cur_node)` loop of `OSStore_Put`, `newnode` being the
address of the node just allocated.  The first component of the result is
`some r` when the loop executed `return(r)`, and `none` when it was left by
`break` or by its condition. -/
def OSStore_Put_loop (key : List Nat) (newnode : Nat) : Nat → Mem → Option (Option Int × Mem)
  | 0, _ => none
  | fuel + 1, m =>
    match m.list.cur_node with
    | none => some (none, m)
    | some cur =>
      match m.heap[cur]? with
      | none => none
      | some c =>
        let chk_rc := strcmp c.key key
        if chk_rc ≥ 0 then
          if chk_rc = 0 then some (some 1, m)
          else
            match OSStore_Put_link newnode cur m with
            | none => none
            | some m1 => some (none, m1)
        else OSStore_Put_loop key newnode fuel (m.setCur c.next)

/-- The `if(!newnode->next)` block of `OSStore_Put`: the new node is linked
after `last_node`. -/
def OSStore_Put_tail (newnode : Nat) (m : Mem) : Option Mem :=
  match m.heap[newnode]? with
  | none => none
  | some nn =>
    if nn.next = none then
      match m.list.last_node with
      | none => none
      | some l => do
        -- list->last_node->next = newnode
        let m1 ← m.setNext l (some newnode)
        -- newnode->prev = list->last_node
        let m2 ← m1.setPrev newnode m1.list.last_node
        -- list->last_node = newnode
        some { m2 with list := { m2.list with last_node := some newnode } }
    else some m

/-- Source function `OSStore_Put`: allocates a node for `(key, data)` and links
it in key order; a key already present is left alone.  Returns `0` when `calloc` fails
and `1` otherwise.  `currently_size` is a C `int`; its overflow is undefined
and not modelled. -/
def OSStore_Put (calloc_ok : Bool) (list : Option Mem) (key : List Nat) (data : Nat) :
    Option (Int × Option Mem) :=
  if !calloc_ok then some (0, list)
  else
    match list with
    | none => none
    | some m0 =>
      let newnode := m0.heap.length
      let m : Mem :=
        { m0 with heap := m0.heap ++ [OSStore_Put_newnode key data] }
      let incr (m : Mem) : Option (Int × Option Mem) :=
        some (1, some { m with list := { m.list with currently_size := m.list.currently_size + 1 } })
      match m.list.first_node with
      | none =>
        incr { m with list := { m.list with first_node := some newnode, last_node := some newnode } }
      | some _ =>
        match OSStore_Put_loop key newnode (m.heap.length + 1) (m.setCur m.list.first_node) with
        | none => none
        | some (some r, m1) => some (r, some m1)
        | some (none, m1) =>
          match OSStore_Put_tail newnode m1 with
          | none => none
          | some m2 => incr m2

/-! ## Observations used by the contract -/

/-- The traversal from a node pointer along `next` until `NULL`. -/
def traverse_loop (heap : List OSStoreNode) : Nat → Option Nat → Option (List OSStoreNode)
  | 0, _ => none
  | _ + 1, none => some []
  | fuel + 1, some p =>
    match heap[p]? with
    | none => none
    | some n => (traverse_loop heap fuel n.next).map (n :: ·)

/-- The nodes linked from `first_node`, in traversal order. -/
def traverse (m : Mem) : Option (List OSStoreNode) :=
  traverse_loop m.heap (m.heap.length + 1) m.list.first_node

/-- The `(key, data)` pair a node holds. -/
def OSStoreNode.entry (n : OSStoreNode) : List Nat × Nat := (n.key, n.data)

/-- The sequence of `(key, data)` entries of a store, in traversal order. -/
def entries (m : Mem) : Option (List (List Nat × Nat)) :=
  (traverse m).map (·.map OSStoreNode.entry)

/-- A sequence of `OSStore_Put` calls, each with a successful allocation. -/
def putAll : Option Mem → List (List Nat × Nat) → Option Mem
  | list, [] => list
  | list, (key, data) :: rest =>
    match OSStore_Put true list key data with
    | none => none
    | some (_, list1) => putAll list1 rest

/-- The store reached from `OSStore_Create` by the given `Put` calls. -/
def fromPuts (ops : List (List Nat × Nat)) : Option Mem :=
  putAll (OSStore_Create true) ops

/-- A call of the public interface with its arguments; for `OSStore_Put` also
whether its allocation succeeds. -/
inductive Call where
  | Put (calloc_ok : Bool) (key : List Nat) (data : Nat)
  | SetMaxSize (max_size : Int)
  | SetFreeDataPointer (free_data_function : Nat)
  | Delete (key : List Nat)
  | Get (key : List Nat)
  | GetPosition (key : List Nat)
  | Check (key : List Nat)
  | NCheck (key : List Nat)
  | NCaseCheck (key : List Nat)
  deriving DecidableEq

/-- The store handle after one call of the interface; `none` when the call
dereferences an invalid pointer or does not terminate. -/
def call (list : Option Mem) : Call → Option Mem
  | Call.Put calloc_ok key data =>
    match OSStore_Put calloc_ok list key data with
    | none => none
    | some (_, list1) => list1
  | Call.SetMaxSize max_size => (OSStore_SetMaxSize list max_size).2
  | Call.SetFreeDataPointer f => (OSStore_SetFreeDataPointer list f).2
  | Call.Delete key => OSStore_Delete list key
  | Call.Get key => (OSStore_Get list key).map Prod.snd
  | Call.GetPosition key => (OSStore_GetPosition list key).map Prod.snd
  | Call.Check key => (OSStore_Check list key).map Prod.snd
  | Call.NCheck key => (OSStore_NCheck list key).map Prod.snd
  | Call.NCaseCheck key => (OSStore_NCaseCheck list key).map Prod.snd

/-- The store handle after a sequence of calls of the interface. -/
def callAll : Option Mem → List Call → Option Mem
  | list, [] => list
  | list, c :: rest => callAll (call list c) rest

/-- The `(key, data)` arguments of the `OSStore_Put` calls of a sequence whose
allocation succeeds, in call order. -/
def putsOf : List Call → List (List Nat × Nat)
  | [] => []
  | Call.Put true key data :: rest => (key, data) :: putsOf rest
  | _ :: rest => putsOf rest

/-- The addresses met from a node pointer along the given link (`next` or
`prev`) until `NULL`. -/
def walk (heap : List OSStoreNode) (link : OSStoreNode → Option Nat) :
    Nat → Option Nat → Option (List Nat)
  | 0, _ => none
  | _ + 1, none => some []
  | fuel + 1, some p =>
    match heap[p]? with
    | none => none
    | some n => (walk heap link fuel (link n)).map (p :: ·)

/-- The addresses of the forward traversal, from `first_node` along `next`. -/
def forward (m : Mem) : Option (List Nat) :=
  walk m.heap OSStoreNode.next (m.heap.length + 1) m.list.first_node

/-- The addresses of the backward traversal, from `last_node` along `prev`. -/
def backward (m : Mem) : Option (List Nat) :=
  walk m.heap OSStoreNode.prev (m.heap.length + 1) m.list.last_node

/-- Two memories that differ at most in the scan cursor `cur_node`: the node
heap (keys, values, links) and every other field of the store are equal. -/
def OnlyCursorMoved (m m1 : Mem) : Prop :=
  m1.heap = m.heap ∧ m1.list.first_node = m.list.first_node ∧
    m1.list.last_node = m.list.last_node ∧
    m1.list.currently_size = m.list.currently_size ∧
    m1.list.max_size = m.list.max_size ∧
    m1.list.free_data_function = m.list.free_data_function

/-! ## Abstraction used in the proofs -/

/-- What the loop of `OSStore_Put` does to the sequence of entries: the scan
stops at the first entry whose key is not below `key`, leaves the sequence
alone when that key is equal, and puts the new entry in front of it
otherwise; without such an entry the new entry goes last. -/
def putList (key : List Nat) (data : Nat) : List (List Nat × Nat) → List (List Nat × Nat)
  | [] => [(key, data)]
  | e :: es =>
    if strcmp e.1 key ≥ 0 then
      if strcmp e.1 key = 0 then e :: es else (key, data) :: e :: es
    else e :: putList key data es

/-- A linked cell: the address of a node and the entry it holds. -/
abbrev Cell := Nat × (List Nat × Nat)

/-- The doubly-linked segment predicate: `cs` lists, in order, the nodes of a
chain that starts at `f`, whose first node has `prev = pv`, whose last node is
`l` and has `next = nx`. -/
def dllseg (h : List OSStoreNode) :
    Option Nat → Option Nat → List Cell → Option Nat → Option Nat → Prop
  | pv, f, [], l, nx => f = nx ∧ l = pv
  | pv, f, c :: cs, l, nx =>
    f = some c.1 ∧ ∃ n, h[c.1]? = some n ∧ n.entry = c.2 ∧ n.key_size = n.key.length ∧
      n.prev = pv ∧ dllseg h (some c.1) n.next cs l nx

/-- The representation invariant of a store: its nodes form a doubly-linked
chain from `first_node` to `last_node` over pairwise distinct addresses, and
`currently_size` counts them. -/
def Inv (m : Mem) (cs : List Cell) : Prop :=
  dllseg m.heap none m.list.first_node cs m.list.last_node none ∧
    (cs.map Prod.fst).Nodup ∧ m.list.currently_size = (cs.length : Int)

/-- Every key of a sequence of `Put` calls is a well-formed C string. -/
def CStrKeys (ops : List (List Nat × Nat)) : Prop := ∀ p ∈ ops, CStr p.1

instance : DecidablePred CStrKeys := fun ops => by unfold CStrKeys; infer_instance

/-- Strictly ascending byte-wise order of a sequence of keys. -/
def Ascending (ks : List (List Nat)) : Prop := ks.Pairwise (fun a b => strcmp a b < 0)

/-- The entries after a sequence of `Put` calls, computed on sequences. -/
def putsList (ops : List (List Nat × Nat)) : List (List Nat × Nat) :=
  ops.foldl (fun es op => putList op.1 op.2 es) []

/-- What the loop of `OSStore_GetPosition` returns on a chain of nodes. -/
def getPositionList (key : List Nat) : Int → List OSStoreNode → Int
  | _, [] => 0
  | pos, n :: ns =>
    if strcmp n.key key ≥ 0 then
      if strcmp n.key key = 0 then pos else 0
    else getPositionList key (pos + 1) ns

/-- What the loop of `OSStore_Get` returns on a chain of nodes. -/
def getList (key : List Nat) : List OSStoreNode → Nat
  | [] => 0
  | n :: ns =>
    if strcmp n.key key ≥ 0 then
      if strcmp n.key key = 0 then n.data else 0
    else getList key ns

/-- What the loop of `OSStore_Check` returns on a chain of nodes. -/
def checkList (key : List Nat) : List OSStoreNode → Int
  | [] => 0
  | n :: ns =>
    if strcmp n.key key ≥ 0 then
      if strcmp n.key key = 0 then 1 else 0
    else checkList key ns

/-- What the loop of `OSStore_NCheck` returns on a chain of nodes. -/
def ncheckList (key : List Nat) : List OSStoreNode → Int
  | [] => 0
  | n :: ns =>
    if strncmp n.key key n.key_size ≥ 0 then
      if strncmp n.key key n.key_size = 0 then 1 else 0
    else ncheckList key ns

/-- What the loop of `OSStore_NCaseCheck` returns on a chain of nodes. -/
def ncaseCheckList (key : List Nat) : List OSStoreNode → Int
  | [] => 0
  | n :: ns =>
    if strncasecmp n.key key n.key_size = 0 then 1 else ncaseCheckList key ns

/-- The value of the first pair with the given key, in a sequence of
`(key, value)` pairs. -/
def firstValue (key : List Nat) : List (List Nat × Nat) → Option Nat
  | [] => none
  | p :: rest => if p.1 = key then some p.2 else firstValue key rest

/-- The rank of `key` among `keys`: one more than the number of keys that are
below it in byte-wise order. -/
def rank (key : List Nat) (keys : List (List Nat)) : Int :=
  ((keys.filter (fun k => decide (strcmp k key < 0))).length : Int) + 1

/-! ## The C string comparison -/

theorem strcmp_swap (a b : List Nat) : strcmp b a = - strcmp a b := by
  induction a generalizing b with
  | nil => cases b <;> simp [strcmp]
  | cons x a ih =>
    cases b with
    | nil => simp [strcmp]
    | cons y b =>
      simp only [strcmp]
      by_cases hxy : x = y
      · subst hxy
        by_cases hx : x = 0
        · simp [hx]
        · simp [hx, ih]
      · have hyx : y ≠ x := fun h => hxy h.symm
        simp [hxy, hyx]

theorem strcmp_eq_zero_iff {a b : List Nat} (ha : CStr a) (hb : CStr b) :
    strcmp a b = 0 ↔ a = b := by
  induction a generalizing b with
  | nil =>
    cases b with
    | nil => simp [strcmp]
    | cons y b =>
      have := (hb y (by simp)).1
      simp [strcmp]; omega
  | cons x a ih =>
    have hx := (ha x (by simp)).1
    have ha2 : CStr a := fun c hc => ha c (by simp [hc])
    cases b with
    | nil => simp [strcmp]; omega
    | cons y b =>
      have hb2 : CStr b := fun c hc => hb c (by simp [hc])
      simp only [strcmp]
      by_cases hxy : x = y
      · subst hxy
        have hx0 : x ≠ 0 := by omega
        simp [hx0, ih ha2 hb2]
      · simp [hxy]; omega

theorem strcmp_self {a : List Nat} (ha : CStr a) : strcmp a a = 0 :=
  (strcmp_eq_zero_iff ha ha).2 rfl

theorem strcmp_trans {a b c : List Nat} (ha : CStr a) (hb : CStr b) (hc : CStr c)
    (hab : strcmp a b < 0) (hbc : strcmp b c < 0) : strcmp a c < 0 := by
  induction a generalizing b c with
  | nil =>
    cases b with
    | nil => simp [strcmp] at hab
    | cons y b =>
      cases c with
      | nil => simp [strcmp] at hbc; omega
      | cons z c =>
        have := (hc z (by simp)).1
        simp [strcmp]; omega
  | cons x a ih =>
    have ha2 : CStr a := fun d hd => ha d (by simp [hd])
    cases b with
    | nil => simp [strcmp] at hab; omega
    | cons y b =>
      have hy := (hb y (by simp)).1
      have hb2 : CStr b := fun d hd => hb d (by simp [hd])
      cases c with
      | nil => simp [strcmp] at hbc; omega
      | cons z c =>
        have hc2 : CStr c := fun d hd => hc d (by simp [hd])
        have hx := (ha x (by simp)).1
        simp only [strcmp] at hab hbc ⊢
        by_cases hxy : x = y
        · subst hxy
          have hx0 : x ≠ 0 := by omega
          by_cases hxz : x = z
          · subst hxz
            simp [hx0] at hab hbc ⊢
            exact ih ha2 hb2 hc2 hab hbc
          · simp [hx0] at hab
            simp [hxz] at hbc ⊢
            exact hbc
        · simp [hxy] at hab
          by_cases hyz : y = z
          · subst hyz
            simp [hxy]; omega
          · simp [hyz] at hbc
            have hxz : x ≠ z := by omega
            simp [hxz]; omega

/-! ## Heap reasoning -/

theorem setNext_spec {m : Mem} {p : Nat} {n : OSStoreNode} (v : Option Nat)
    (h : m.heap[p]? = some n) :
    ∃ m1, m.setNext p v = some m1 ∧ m1.list = m.list ∧ m1.heap.length = m.heap.length ∧
      m1.heap[p]? = some { n with next := v } ∧ ∀ q, q ≠ p → m1.heap[q]? = m.heap[q]? := by
  have hp : p < m.heap.length := (List.getElem?_eq_some.1 h).1
  refine ⟨{ m with heap := m.heap.set p { n with next := v } }, ?_, rfl, by simp, ?_, ?_⟩
  · simp [Mem.setNext, h]
  · simp [List.getElem?_set_self hp]
  · intro q hq
    simp [List.getElem?_set_ne (Ne.symm hq)]

theorem setPrev_spec {m : Mem} {p : Nat} {n : OSStoreNode} (v : Option Nat)
    (h : m.heap[p]? = some n) :
    ∃ m1, m.setPrev p v = some m1 ∧ m1.list = m.list ∧ m1.heap.length = m.heap.length ∧
      m1.heap[p]? = some { n with prev := v } ∧ ∀ q, q ≠ p → m1.heap[q]? = m.heap[q]? := by
  have hp : p < m.heap.length := (List.getElem?_eq_some.1 h).1
  refine ⟨{ m with heap := m.heap.set p { n with prev := v } }, ?_, rfl, by simp, ?_, ?_⟩
  · simp [Mem.setPrev, h]
  · simp [List.getElem?_set_self hp]
  · intro q hq
    simp [List.getElem?_set_ne (Ne.symm hq)]

theorem dllseg_frame {h h1 : List OSStoreNode} {cs : List Cell}
    (hfr : ∀ c ∈ cs, h1[c.1]? = h[c.1]?) :
    ∀ {pv f l nx}, dllseg h pv f cs l nx → dllseg h1 pv f cs l nx := by
  induction cs with
  | nil => intro pv f l nx hs; exact hs
  | cons c cs ih =>
    intro pv f l nx hs
    obtain ⟨hf, n, hn, he, hk, hp, hrest⟩ := hs
    refine ⟨hf, n, ?_, he, hk, hp, ih (fun d hd => hfr d (by simp [hd])) hrest⟩
    rw [hfr c (by simp)]; exact hn

theorem dllseg_append {h : List OSStoreNode} {xs ys : List Cell} :
    ∀ {pv f l nx}, dllseg h pv f (xs ++ ys) l nx ↔
      ∃ ml mf, dllseg h pv f xs ml mf ∧ dllseg h ml mf ys l nx := by
  induction xs with
  | nil =>
    intro pv f l nx
    constructor
    · intro hs; exact ⟨pv, f, ⟨rfl, rfl⟩, hs⟩
    · rintro ⟨ml, mf, ⟨h1, h2⟩, hs⟩; subst h1 h2; exact hs
  | cons c xs ih =>
    intro pv f l nx
    constructor
    · rintro ⟨hf, n, hn, he, hk, hp, hrest⟩
      obtain ⟨ml, mf, h1, h2⟩ := ih.1 hrest
      exact ⟨ml, mf, ⟨hf, n, hn, he, hk, hp, h1⟩, h2⟩
    · rintro ⟨ml, mf, ⟨hf, n, hn, he, hk, hp, h1⟩, h2⟩
      exact ⟨hf, n, hn, he, hk, hp, ih.2 ⟨ml, mf, h1, h2⟩⟩

theorem dllseg_valid {h : List OSStoreNode} {cs : List Cell} :
    ∀ {pv f l nx}, dllseg h pv f cs l nx → ∀ c ∈ cs, c.1 < h.length := by
  induction cs with
  | nil => intro pv f l nx _ c hc; simp at hc
  | cons d cs ih =>
    intro pv f l nx hs c hc
    obtain ⟨_, n, hn, _, _, _, hrest⟩ := hs
    rcases List.mem_cons.1 hc with rfl | hc
    · exact (List.getElem?_eq_some.1 hn).1
    · exact ih hrest c hc

theorem Inv.length_le {m : Mem} {cs : List Cell} (hi : Inv m cs) :
    cs.length ≤ m.heap.length := by
  have hsub : cs.map Prod.fst ⊆ List.range m.heap.length := by
    intro a ha
    obtain ⟨c, hc, rfl⟩ := List.mem_map.1 ha
    exact List.mem_range.2 (dllseg_valid hi.1 c hc)
  have := (List.subperm_of_subset hi.2.1 hsub).length_le
  simpa using this

theorem traverse_loop_of_dllseg {h : List OSStoreNode} (cs : List Cell) :
    ∀ {pv f l} (fuel : Nat), dllseg h pv f cs l none → cs.length < fuel →
      ∃ ns, traverse_loop h fuel f = some ns ∧ ns.map OSStoreNode.entry = cs.map Prod.snd ∧
        ∀ n ∈ ns, n.key_size = n.key.length := by
  induction cs with
  | nil =>
    intro pv f l fuel hs hfuel
    obtain ⟨hf, _⟩ := hs
    subst hf
    cases fuel with
    | zero => simp at hfuel
    | succ fuel => exact ⟨[], by simp [traverse_loop], by simp, by simp⟩
  | cons c cs ih =>
    intro pv f l fuel hs hfuel
    obtain ⟨hf, n, hn, he, hk, _, hrest⟩ := hs
    subst hf
    cases fuel with
    | zero => simp at hfuel
    | succ fuel =>
      obtain ⟨ns, h1, h2, h3⟩ := ih fuel hrest (by simpa using hfuel)
      refine ⟨n :: ns, by simp [traverse_loop, hn, h1], by simp [he, h2], ?_⟩
      intro x hx
      rcases List.mem_cons.1 hx with rfl | hx
      · exact hk
      · exact h3 x hx

theorem traverse_loop_mono {h : List OSStoreNode} :
    ∀ (fuel : Nat) (p : Option Nat) (ns : List OSStoreNode),
      traverse_loop h fuel p = some ns → traverse_loop h (fuel + 1) p = some ns := by
  intro fuel
  induction fuel with
  | zero => intro p ns hp; simp [traverse_loop] at hp
  | succ fuel ih =>
    intro p ns hp
    cases p with
    | none => simpa [traverse_loop] using hp
    | some a =>
      simp only [traverse_loop] at hp ⊢
      cases ha : h[a]? with
      | none => simp [ha] at hp
      | some n =>
        simp only [ha, Option.map_eq_some'] at hp ⊢
        obtain ⟨ns1, h1, rfl⟩ := hp
        exact ⟨ns1, ih n.next ns1 h1, rfl⟩

theorem traverse_of_inv {m : Mem} {cs : List Cell} (hi : Inv m cs) :
    ∃ ns, traverse m = some ns ∧ ns.map OSStoreNode.entry = cs.map Prod.snd ∧
      ∀ n ∈ ns, n.key_size = n.key.length :=
  traverse_loop_of_dllseg cs (m.heap.length + 1) hi.1 (Nat.lt_succ_of_le hi.length_le)

theorem link_spec {M : Mem} (pre suf : List Cell) {c : Cell} {nn : Nat} {key : List Nat}
    {data : Nat}
    (hseg : dllseg M.heap none M.list.first_node (pre ++ c :: suf) M.list.last_node none)
    (hnd : ((pre ++ c :: suf).map Prod.fst).Nodup)
    (hnn : nn ∉ (pre ++ c :: suf).map Prod.fst)
    (hnew : M.heap[nn]? = some
      { next := none, prev := none, key := key, key_size := strlen key, data := data }) :
    ∃ m1, OSStore_Put_link nn c.1 M = some m1 ∧
      dllseg m1.heap none m1.list.first_node (pre ++ (nn, (key, data)) :: c :: suf)
        m1.list.last_node none ∧
      m1.list.last_node = M.list.last_node ∧
      m1.list.currently_size = M.list.currently_size ∧
      m1.list.max_size = M.list.max_size ∧
      m1.list.free_data_function = M.list.free_data_function ∧
      m1.heap.length = M.heap.length ∧ ∃ n, m1.heap[nn]? = some n ∧ n.next = some c.1 := by
  obtain ⟨ml, mf, hpre, hcs⟩ := dllseg_append.1 hseg
  obtain ⟨hmf, n, hn, hne, hnk, hnp, hsuf⟩ := hcs
  simp only [List.map_append, List.map_cons, List.mem_append, List.mem_cons, List.mem_map,
    not_or] at hnn
  obtain ⟨hnnpre, hnnc, hnnsuf⟩ := hnn
  rw [List.map_append, List.nodup_append] at hnd
  obtain ⟨hndpre, hndcs, hdisj⟩ := hnd
  rw [List.map_cons, List.nodup_cons] at hndcs
  obtain ⟨hcsuf, hndsuf⟩ := hndcs
  have hsufc : ∀ d ∈ suf, d.1 ≠ c.1 := fun d hd he =>
    hcsuf (List.mem_map.2 ⟨d, hd, he⟩)
  have hsufnn : ∀ d ∈ suf, d.1 ≠ nn := fun d hd he => hnnsuf ⟨d, hd, he⟩
  rcases List.eq_nil_or_concat pre with rfl | ⟨pre1, q, hq⟩
  · obtain ⟨hf, hml⟩ := hpre
    subst hml
    obtain ⟨m2, e2, l2, len2, r2, o2⟩ := setPrev_spec
      (m := { M with list := { M.list with first_node := some nn } }) none hnew
    simp only at l2 len2 r2 o2
    have hc2 : m2.heap[c.1]? = some n := by rw [o2 c.1 (fun h => hnnc h.symm)]; exact hn
    obtain ⟨m3, e3, l3, len3, r3, o3⟩ := setPrev_spec (some nn) hc2
    have hn3 : m3.heap[nn]? = some
        { next := none, prev := none, key := key, key_size := strlen key, data := data } := by
      rw [o3 nn hnnc]; exact r2
    obtain ⟨m4, e4, l4, len4, r4, o4⟩ := setNext_spec (some c.1) hn3
    simp only at r3 r4
    have hl4 : m4.list = { M.list with first_node := some nn } := by rw [l4, l3, l2]
    refine ⟨m4, ?_, ?_, ?_, ?_, ?_, ?_, ?_, _, r4, rfl⟩
    · simp [OSStore_Put_link, hn, hnp, e2, e3, e4]
    · have hc4 : m4.heap[c.1]? = some { n with prev := some nn } := by
        rw [o4 c.1 (fun h => hnnc h.symm)]; exact r3
      have hfr : ∀ d ∈ suf, m4.heap[d.1]? = M.heap[d.1]? := by
        intro d hd
        rw [o4 d.1 (hsufnn d hd), o3 d.1 (hsufc d hd), o2 d.1 (hsufnn d hd)]
      rw [hl4]
      exact ⟨rfl, _, r4, rfl, rfl, rfl, rfl, _, hc4, hne, hnk, rfl, dllseg_frame hfr hsuf⟩
    all_goals first | simp [hl4] | omega
  · rw [List.concat_eq_append] at hq
    subst hq
    obtain ⟨ml1, mf1, hpre1, hq1⟩ := dllseg_append.1 hpre
    obtain ⟨hmf1, nq, hnq, hqe, hqk, hqp, hqn, hml⟩ := hq1
    have hnp1 : n.prev = some q.1 := by rw [hnp, hml]
    simp only [List.map_append, List.map_cons, List.map_nil, List.nodup_append,
      List.nodup_cons, List.not_mem_nil, not_false_eq_true, List.nodup_nil, and_true,
      List.disjoint_singleton, true_and, List.mem_map, not_exists, not_and] at hndpre
    obtain ⟨hndpre1, hqpre1⟩ := hndpre
    have hqc : q.1 ≠ c.1 := by
      intro h
      exact hdisj (a := q.1) (by simp) (by simp [h])
    have hqnn : q.1 ≠ nn := fun h => hnnpre ⟨q, by simp, h⟩
    have hp1q : ∀ d ∈ pre1, d.1 ≠ q.1 := fun d hd he => hqpre1 d hd he
    have hp1c : ∀ d ∈ pre1, d.1 ≠ c.1 := by
      intro d hd h
      exact hdisj (a := d.1) (by simp; exact Or.inl ⟨_, _, hd⟩) (by simp [h])
    have hp1nn : ∀ d ∈ pre1, d.1 ≠ nn := fun d hd h => hnnpre ⟨d, by simp [hd], h⟩
    have hsufq : ∀ d ∈ suf, d.1 ≠ q.1 := by
      intro d hd h
      exact hdisj (a := q.1) (by simp) (List.mem_map.2 ⟨d, by simp [hd], h⟩)
    obtain ⟨m1, e1, l1, len1, r1, o1⟩ := setNext_spec (some nn) hnq
    have hc1 : m1.heap[c.1]? = some n := by rw [o1 c.1 hqc.symm]; exact hn
    have hn1 : m1.heap[nn]? = some
        { next := none, prev := none, key := key, key_size := strlen key, data := data } := by
      rw [o1 nn hqnn.symm]; exact hnew
    obtain ⟨m2, e2, l2, len2, r2, o2⟩ := setPrev_spec (some q.1) hn1
    have hc2 : m2.heap[c.1]? = some n := by rw [o2 c.1 (fun h => hnnc h.symm)]; exact hc1
    obtain ⟨m3, e3, l3, len3, r3, o3⟩ := setPrev_spec (some nn) hc2
    simp only at r1 r2 r3
    have hn3 : m3.heap[nn]? = some
        { next := none, prev := some q.1, key := key, key_size := strlen key, data := data } := by
      rw [o3 nn hnnc]; exact r2
    obtain ⟨m4, e4, l4, len4, r4, o4⟩ := setNext_spec (some c.1) hn3
    simp only at r4
    have hl4 : m4.list = M.list := by rw [l4, l3, l2, l1]
    refine ⟨m4, ?_, ?_, ?_, ?_, ?_, ?_, ?_, _, r4, rfl⟩
    · simp [OSStore_Put_link, hn, hnp1, e1, hc1, e2, e3, e4]
    · have hc4 : m4.heap[c.1]? = some { n with prev := some nn } := by
        rw [o4 c.1 (fun h => hnnc h.symm)]; exact r3
      have hq4 : m4.heap[q.1]? = some { nq with next := some nn } := by
        rw [o4 q.1 hqnn, o3 q.1 hqc, o2 q.1 hqnn]; exact r1
      have hfr : ∀ d ∈ suf, m4.heap[d.1]? = M.heap[d.1]? := by
        intro d hd
        rw [o4 d.1 (hsufnn d hd), o3 d.1 (hsufc d hd), o2 d.1 (hsufnn d hd),
          o1 d.1 (hsufq d hd)]
      have hfr1 : ∀ d ∈ pre1, m4.heap[d.1]? = M.heap[d.1]? := by
        intro d hd
        rw [o4 d.1 (hp1nn d hd), o3 d.1 (hp1c d hd), o2 d.1 (hp1nn d hd),
          o1 d.1 (hp1q d hd)]
      rw [hl4]
      refine dllseg_append.2 ⟨some q.1, some nn, dllseg_append.2 ⟨ml1, mf1,
        dllseg_frame hfr1 hpre1, hmf1, _, hq4, hqe, hqk, hqp, rfl, rfl⟩, ?_⟩
      exact ⟨rfl, _, r4, rfl, rfl, rfl, rfl, _, hc4, hne, hnk, rfl, dllseg_frame hfr hsuf⟩
    all_goals first | simp [hl4] | omega

theorem tail_spec {M : Mem} {cs : List Cell} {nn : Nat} (key : List Nat) (data : Nat)
    (hseg : dllseg M.heap none M.list.first_node cs M.list.last_node none)
    (hne : cs ≠ []) (hnd : (cs.map Prod.fst).Nodup) (hnn : nn ∉ cs.map Prod.fst)
    (hnew : M.heap[nn]? = some
      { next := none, prev := none, key := key, key_size := strlen key, data := data }) :
    ∃ m1, OSStore_Put_tail nn M = some m1 ∧
      dllseg m1.heap none m1.list.first_node (cs ++ [(nn, (key, data))])
        m1.list.last_node none ∧
      m1.list.currently_size = M.list.currently_size ∧
      m1.list.max_size = M.list.max_size ∧
      m1.list.free_data_function = M.list.free_data_function ∧
      m1.heap.length = M.heap.length := by
  rcases List.eq_nil_or_concat cs with rfl | ⟨cs1, q, hq⟩
  · exact absurd rfl hne
  rw [List.concat_eq_append] at hq
  subst hq
  obtain ⟨ml1, mf1, hpre1, hq1⟩ := dllseg_append.1 hseg
  obtain ⟨hmf1, nq, hnq, hqe, hqk, hqp, hqn, hlast⟩ := hq1
  simp only [List.map_append, List.map_cons, List.map_nil, List.nodup_append,
    List.nodup_cons, List.not_mem_nil, not_false_eq_true, List.nodup_nil, and_true,
    List.disjoint_singleton, true_and, List.mem_map, not_exists, not_and] at hnd
  obtain ⟨hnd1, hq1⟩ := hnd
  simp only [List.map_append, List.map_cons, List.map_nil, List.mem_append, List.mem_map,
    List.mem_singleton, not_or, not_exists, not_and] at hnn
  obtain ⟨hnn1, hnnq⟩ := hnn
  obtain ⟨m1, e1, l1, len1, r1, o1⟩ := setNext_spec (some nn) hnq
  have hn1 : m1.heap[nn]? = some
      { next := none, prev := none, key := key, key_size := strlen key, data := data } := by
    rw [o1 nn hnnq]; exact hnew
  obtain ⟨m2, e2, l2, len2, r2, o2⟩ := setPrev_spec (some q.1) hn1
  simp only at r1 r2
  have hl2 : m2.list = M.list := by rw [l2, l1]
  refine ⟨{ m2 with list := { m2.list with last_node := some nn } }, ?_, ?_, ?_, ?_, ?_, ?_⟩
  · simp [OSStore_Put_tail, hnew, hlast, e1, l1, e2]
  · have hq2 : m2.heap[q.1]? = some { nq with next := some nn } := by
      rw [o2 q.1 (fun h => hnnq h.symm)]; exact r1
    have hfr1 : ∀ d ∈ cs1, m2.heap[d.1]? = M.heap[d.1]? := by
      intro d hd
      rw [o2 d.1 (fun h => hnn1 d hd h), o1 d.1 (fun h => hq1 d hd h)]
    simp only [hl2]
    refine dllseg_append.2 ⟨some q.1, some nn, dllseg_append.2 ⟨ml1, mf1,
      dllseg_frame hfr1 hpre1, hmf1, _, hq2, hqe, hqk, hqp, rfl, rfl⟩, ?_⟩
    exact ⟨rfl, _, r2, rfl, rfl, rfl, rfl, rfl⟩
  all_goals first | (simp [hl2]; done) | (simp; omega)

theorem tail_noop {M : Mem} {nn x : Nat} {n : OSStoreNode} (hn : M.heap[nn]? = some n)
    (hx : n.next = some x) : OSStore_Put_tail nn M = some M := by
  simp [OSStore_Put_tail, hn, hx]

/-! ## The loop of `OSStore_Put` against `putList` -/

theorem putList_append_lt (key : List Nat) (data : Nat) (pre suf : List (List Nat × Nat))
    (hpre : ∀ e ∈ pre, strcmp e.1 key < 0) :
    putList key data (pre ++ suf) = pre ++ putList key data suf := by
  induction pre with
  | nil => rfl
  | cons e pre ih =>
    have he : ¬ strcmp e.1 key ≥ 0 := not_le.2 (hpre e (by simp))
    rw [List.cons_append, putList, if_neg he, ih (fun d hd => hpre d (by simp [hd]))]
    rfl

theorem putList_all_lt (key : List Nat) (data : Nat) (es : List (List Nat × Nat))
    (hes : ∀ e ∈ es, strcmp e.1 key < 0) :
    putList key data es = es ++ [(key, data)] := by
  have := putList_append_lt key data es [] hes
  simpa [putList] using this

theorem put_loop_spec {M : Mem} {cs : List Cell} (nn : Nat) (key : List Nat) (data : Nat)
    (hseg : dllseg M.heap none M.list.first_node cs M.list.last_node none)
    (hnd : (cs.map Prod.fst).Nodup) (hnn : nn ∉ cs.map Prod.fst)
    (hnew : M.heap[nn]? = some
      { next := none, prev := none, key := key, key_size := strlen key, data := data }) :
    ∀ (suf pre : List Cell) (ml mf : Option Nat) (fuel : Nat),
      cs = pre ++ suf → dllseg M.heap ml mf suf M.list.last_node none →
      (∀ c ∈ pre, strcmp c.2.1 key < 0) → suf.length < fuel →
      (∃ c, OSStore_Put_loop key nn fuel (M.setCur mf) = some (some 1, M.setCur c) ∧
        putList key data (cs.map Prod.snd) = cs.map Prod.snd) ∨
      (∃ m1 cs1, OSStore_Put_loop key nn fuel (M.setCur mf) = some (none, m1) ∧
        cs1.map Prod.snd = putList key data (cs.map Prod.snd) ∧
        (cs1.map Prod.fst).Nodup ∧ cs1.length = cs.length + 1 ∧
        dllseg m1.heap none m1.list.first_node cs1 m1.list.last_node none ∧
        m1.list.currently_size = M.list.currently_size ∧
        m1.list.max_size = M.list.max_size ∧
        m1.list.free_data_function = M.list.free_data_function ∧
        m1.heap.length = M.heap.length ∧ ∃ n x, m1.heap[nn]? = some n ∧ n.next = some x) ∨
      (OSStore_Put_loop key nn fuel (M.setCur mf) = some (none, M.setCur none) ∧
        ∀ c ∈ cs, strcmp c.2.1 key < 0) := by
  intro suf
  induction suf with
  | nil =>
    intro pre ml mf fuel hcs hsuf hpre hfuel
    obtain ⟨hmf, _⟩ := hsuf
    subst hmf
    cases fuel with
    | zero => simp at hfuel
    | succ fuel =>
      refine Or.inr (Or.inr ⟨by simp [OSStore_Put_loop, Mem.setCur], ?_⟩)
      intro c hc
      rw [hcs, List.append_nil] at hc
      exact hpre c hc
  | cons c suf ih =>
    intro pre ml mf fuel hcs hsuf hpre hfuel
    obtain ⟨hmf, n, hn, hne, hnk, hnp, hrest⟩ := hsuf
    subst hmf
    have hkey : n.key = c.2.1 := by rw [← hne]; rfl
    have hpre2 : ∀ e ∈ pre.map Prod.snd, strcmp e.1 key < 0 := by
      intro e he
      obtain ⟨d, hd, rfl⟩ := List.mem_map.1 he
      exact hpre d hd
    cases fuel with
    | zero => simp at hfuel
    | succ fuel =>
      by_cases hge : strcmp c.2.1 key ≥ 0
      · by_cases hz : strcmp c.2.1 key = 0
        · refine Or.inl ⟨some c.1, ?_, ?_⟩
          · simp [OSStore_Put_loop, Mem.setCur, hn, hkey, hz]
          · rw [hcs, List.map_append, putList_append_lt key data _ _ hpre2]
            simp [putList, hz]
        · subst hcs
          obtain ⟨m1, e1, hs1, hlast, hsz, hmax, hfree, hlen, n1, hn1, hnx⟩ :=
            link_spec (M := M.setCur (some c.1)) pre suf (c := c)
              hseg hnd hnn hnew
          refine Or.inr (Or.inl ⟨m1, pre ++ (nn, (key, data)) :: c :: suf, ?_, ?_, ?_, ?_,
            hs1, hsz, hmax, hfree, hlen, n1, c.1, hn1, hnx⟩)
          · simp only [OSStore_Put_loop]
            simp [Mem.setCur, hn, hkey, hge, hz]
            simp only [Mem.setCur] at e1
            rw [e1]
          · rw [List.map_append, List.map_append, putList_append_lt key data _ _ hpre2]
            simp [putList, hge, hz]
          · have hperm : List.Perm ((pre ++ (nn, (key, data)) :: c :: suf).map Prod.fst)
                (nn :: (pre ++ c :: suf).map Prod.fst) := by
              simp only [List.map_append, List.map_cons]
              exact List.perm_middle
            rw [hperm.nodup_iff, List.nodup_cons]
            exact ⟨hnn, hnd⟩
          · simp only [List.length_append, List.length_cons]; omega
      · have hlt : strcmp c.2.1 key < 0 := not_le.1 hge
        have hstep : OSStore_Put_loop key nn (fuel + 1) (M.setCur (some c.1)) =
            OSStore_Put_loop key nn fuel (M.setCur n.next) := by
          simp [OSStore_Put_loop, Mem.setCur, hn, hkey, hge]
        rw [hstep]
        refine ih (pre ++ [c]) (some c.1) n.next fuel (by simp [hcs]) hrest ?_
          (by simpa using hfuel)
        intro d hd
        rcases List.mem_append.1 hd with hd | hd
        · exact hpre d hd
        · rw [List.mem_singleton.1 hd]; exact hlt

theorem put_unfold (m : Mem) (key : List Nat) (data : Nat) {c : Nat}
    (hfirst : m.list.first_node = some c) :
    OSStore_Put true (some m) key data =
      match OSStore_Put_loop key m.heap.length
          ((m.heap ++ [OSStore_Put_newnode key data]).length + 1)
          (Mem.setCur { m with heap := m.heap ++ [OSStore_Put_newnode key data] }
            m.list.first_node) with
      | none => none
      | some (some r, m1) => some (r, some m1)
      | some (none, m1) =>
        match OSStore_Put_tail m.heap.length m1 with
        | none => none
        | some m2 => some (1, some
            { m2 with list := { m2.list with currently_size := m2.list.currently_size + 1 } }) := by
  simp only [OSStore_Put, hfirst]
  rfl

theorem put_spec {m : Mem} {cs : List Cell} (hi : Inv m cs) (key : List Nat) (data : Nat) :
    ∃ m1 cs1, OSStore_Put true (some m) key data = some (1, some m1) ∧ Inv m1 cs1 ∧
      cs1.map Prod.snd = putList key data (cs.map Prod.snd) ∧
      m1.list.max_size = m.list.max_size ∧
      m1.list.free_data_function = m.list.free_data_function := by
  obtain ⟨hseg, hnd, hsz⟩ := hi
  have hvalid := dllseg_valid hseg
  have hlen := Inv.length_le ⟨hseg, hnd, hsz⟩
  have hnn : m.heap.length ∉ cs.map Prod.fst := by
    intro h
    obtain ⟨c, hc, he⟩ := List.mem_map.1 h
    have := hvalid c hc
    omega
  have hnew : (m.heap ++ [OSStore_Put_newnode key data])[m.heap.length]? = some
      { next := none, prev := none, key := key, key_size := strlen key, data := data } :=
    List.getElem?_concat_length _ _
  have hsegM : dllseg (m.heap ++ [OSStore_Put_newnode key data]) none m.list.first_node cs
      m.list.last_node none :=
    dllseg_frame (fun c hc => List.getElem?_append_left (hvalid c hc)) hseg
  cases cs with
  | nil =>
    obtain ⟨hf, hl⟩ := hseg
    refine ⟨{ heap := m.heap ++ [OSStore_Put_newnode key data]
              list := { m.list with
                first_node := some m.heap.length
                last_node := some m.heap.length
                currently_size := m.list.currently_size + 1 } },
      [(m.heap.length, (key, data))], ?_, ⟨?_, ?_, ?_⟩, ?_, ?_, ?_⟩
    · simp [OSStore_Put, hf]
    · exact ⟨rfl, _, hnew, rfl, rfl, rfl, rfl, rfl⟩
    · simp
    · simp at hsz ⊢
      rw [hsz]
    · simp [putList]
    · rfl
    · rfl
  | cons c cs1 =>
    have hfirst : m.list.first_node = some c.1 := hseg.1
    have hloop := put_loop_spec
      (M := { m with heap := m.heap ++ [OSStore_Put_newnode key data] })
      m.heap.length key data hsegM hnd hnn hnew (c :: cs1) []
      none m.list.first_node ((m.heap ++ [OSStore_Put_newnode key data]).length + 1) rfl hsegM
      (by simp) (by simp only [List.length_append] at hlen ⊢; simp at hlen ⊢; omega)
    rw [put_unfold m key data hfirst]
    rcases hloop with ⟨c1, e, hp⟩ | ⟨m1, cs2, e, hp, hnd2, hlen2, hseg2, hsz2, hmax2, hfree2,
      hl2, n2, x2, hn2, hx2⟩ | ⟨e, hall⟩
    · rw [e]
      exact ⟨_, c :: cs1, rfl, ⟨hsegM, hnd, hsz⟩, hp.symm, rfl, rfl⟩
    · rw [e]
      simp only [tail_noop hn2 hx2]
      refine ⟨_, cs2, rfl, ⟨hseg2, hnd2, ?_⟩, hp, hmax2, hfree2⟩
      simp only [hsz2, hlen2, hsz]
      push_cast
      rfl
    · rw [e]
      obtain ⟨m2, e2, hseg2, hsz2, hmax2, hfree2, hl2⟩ := tail_spec key data
        (M := Mem.setCur { m with heap := m.heap ++ [OSStore_Put_newnode key data] } none)
        hsegM (by simp) hnd hnn hnew
      simp only [e2]
      refine ⟨_, (c :: cs1) ++ [(m.heap.length, (key, data))], rfl, ⟨hseg2, ?_, ?_⟩, ?_,
        hmax2, hfree2⟩
      · have hperm : List.Perm (((c :: cs1) ++ [(m.heap.length, (key, data))]).map Prod.fst)
            (m.heap.length :: (c :: cs1).map Prod.fst) := by
          simp only [List.map_append, List.map_cons, List.map_nil]
          exact List.perm_append_singleton _ _
        rw [hperm.nodup_iff, List.nodup_cons]
        exact ⟨hnn, hnd⟩
      · simp only [hsz2]
        show m.list.currently_size + 1 = _
        rw [hsz]
        simp
      · rw [putList_all_lt key data _ (by
          intro e he
          obtain ⟨d, hd, rfl⟩ := List.mem_map.1 he
          exact hall d hd)]
        simp

/-! ## The scans against their list versions -/

@[simp] theorem setCur_heap (m : Mem) (c : Option Nat) : (m.setCur c).heap = m.heap := rfl

@[simp] theorem setCur_cur (m : Mem) (c : Option Nat) : (m.setCur c).list.cur_node = c := rfl

@[simp] theorem setCur_setCur (m : Mem) (c d : Option Nat) :
    (m.setCur c).setCur d = m.setCur d := rfl

theorem get_loop_eq (key : List Nat) (m : Mem) :
    ∀ (fuel : Nat) (cur : Option Nat) (ns : List OSStoreNode),
      traverse_loop m.heap fuel cur = some ns →
      ∃ c, OSStore_Get_loop key fuel (m.setCur cur) = some (getList key ns, m.setCur c) := by
  intro fuel
  induction fuel with
  | zero => intro cur ns h; simp [traverse_loop] at h
  | succ fuel ih =>
    intro cur ns h
    cases cur with
    | none =>
      simp only [traverse_loop, Option.some.injEq] at h
      subst h
      exact ⟨none, by simp [OSStore_Get_loop, getList]⟩
    | some p =>
      simp only [traverse_loop] at h
      cases hp : m.heap[p]? with
      | none => simp [hp] at h
      | some n =>
        simp only [hp, Option.map_eq_some'] at h
        obtain ⟨ns1, h1, rfl⟩ := h
        obtain ⟨c, hc⟩ := ih n.next ns1 h1
        by_cases hge : strcmp n.key key ≥ 0
        · exact ⟨some p, by
            by_cases hz : strcmp n.key key = 0 <;> simp [OSStore_Get_loop, getList, hp, hge, hz]⟩
        · exact ⟨c, by simp [OSStore_Get_loop, getList, hp, hge, hc]⟩

theorem get_eq {m : Mem} {ns : List OSStoreNode} (h : traverse m = some ns) (key : List Nat) :
    ∃ c, OSStore_Get (some m) key = some (getList key ns, m.setCur c) :=
  get_loop_eq key m _ _ _ h

theorem check_loop_eq (key : List Nat) (m : Mem) :
    ∀ (fuel : Nat) (cur : Option Nat) (ns : List OSStoreNode),
      traverse_loop m.heap fuel cur = some ns →
      ∃ c, OSStore_Check_loop key fuel (m.setCur cur) = some (checkList key ns, m.setCur c) := by
  intro fuel
  induction fuel with
  | zero => intro cur ns h; simp [traverse_loop] at h
  | succ fuel ih =>
    intro cur ns h
    cases cur with
    | none =>
      simp only [traverse_loop, Option.some.injEq] at h
      subst h
      exact ⟨none, by simp [OSStore_Check_loop, checkList]⟩
    | some p =>
      simp only [traverse_loop] at h
      cases hp : m.heap[p]? with
      | none => simp [hp] at h
      | some n =>
        simp only [hp, Option.map_eq_some'] at h
        obtain ⟨ns1, h1, rfl⟩ := h
        obtain ⟨c, hc⟩ := ih n.next ns1 h1
        by_cases hge : strcmp n.key key ≥ 0
        · exact ⟨some p, by
            by_cases hz : strcmp n.key key = 0 <;> simp [OSStore_Check_loop, checkList, hp, hge, hz]⟩
        · exact ⟨c, by simp [OSStore_Check_loop, checkList, hp, hge, hc]⟩

theorem check_eq {m : Mem} {ns : List OSStoreNode} (h : traverse m = some ns) (key : List Nat) :
    ∃ c, OSStore_Check (some m) key = some (checkList key ns, m.setCur c) :=
  check_loop_eq key m _ _ _ h

theorem ncheck_loop_eq (key : List Nat) (m : Mem) :
    ∀ (fuel : Nat) (cur : Option Nat) (ns : List OSStoreNode),
      traverse_loop m.heap fuel cur = some ns →
      ∃ c, OSStore_NCheck_loop key fuel (m.setCur cur) = some (ncheckList key ns, m.setCur c) := by
  intro fuel
  induction fuel with
  | zero => intro cur ns h; simp [traverse_loop] at h
  | succ fuel ih =>
    intro cur ns h
    cases cur with
    | none =>
      simp only [traverse_loop, Option.some.injEq] at h
      subst h
      exact ⟨none, by simp [OSStore_NCheck_loop, ncheckList]⟩
    | some p =>
      simp only [traverse_loop] at h
      cases hp : m.heap[p]? with
      | none => simp [hp] at h
      | some n =>
        simp only [hp, Option.map_eq_some'] at h
        obtain ⟨ns1, h1, rfl⟩ := h
        obtain ⟨c, hc⟩ := ih n.next ns1 h1
        by_cases hge : strncmp n.key key n.key_size ≥ 0
        · exact ⟨some p, by
            by_cases hz : strncmp n.key key n.key_size = 0 <;> simp [OSStore_NCheck_loop, ncheckList, hp, hge, hz]⟩
        · exact ⟨c, by simp [OSStore_NCheck_loop, ncheckList, hp, hge, hc]⟩

theorem ncheck_eq {m : Mem} {ns : List OSStoreNode} (h : traverse m = some ns) (key : List Nat) :
    ∃ c, OSStore_NCheck (some m) key = some (ncheckList key ns, m.setCur c) :=
  ncheck_loop_eq key m _ _ _ h

theorem ncaseCheck_loop_eq (key : List Nat) (m : Mem) :
    ∀ (fuel : Nat) (cur : Option Nat) (ns : List OSStoreNode),
      traverse_loop m.heap fuel cur = some ns →
      ∃ c, OSStore_NCaseCheck_loop key fuel (m.setCur cur) =
        some (ncaseCheckList key ns, m.setCur c) := by
  intro fuel
  induction fuel with
  | zero => intro cur ns h; simp [traverse_loop] at h
  | succ fuel ih =>
    intro cur ns h
    cases cur with
    | none =>
      simp only [traverse_loop, Option.some.injEq] at h
      subst h
      exact ⟨none, by simp [OSStore_NCaseCheck_loop, ncaseCheckList]⟩
    | some p =>
      simp only [traverse_loop] at h
      cases hp : m.heap[p]? with
      | none => simp [hp] at h
      | some n =>
        simp only [hp, Option.map_eq_some'] at h
        obtain ⟨ns1, h1, rfl⟩ := h
        obtain ⟨c, hc⟩ := ih n.next ns1 h1
        by_cases hz : strncasecmp n.key key n.key_size = 0
        · exact ⟨some p, by simp [OSStore_NCaseCheck_loop, ncaseCheckList, hp, hz]⟩
        · exact ⟨c, by simp [OSStore_NCaseCheck_loop, ncaseCheckList, hp, hz, hc]⟩

theorem ncaseCheck_eq {m : Mem} {ns : List OSStoreNode} (h : traverse m = some ns) (key : List Nat) :
    ∃ c, OSStore_NCaseCheck (some m) key = some (ncaseCheckList key ns, m.setCur c) :=
  ncaseCheck_loop_eq key m _ _ _ h

theorem getPosition_loop_eq (key : List Nat) (m : Mem) :
    ∀ (fuel : Nat) (pos : Int) (cur : Option Nat) (ns : List OSStoreNode),
      traverse_loop m.heap fuel cur = some ns →
      ∃ c, OSStore_GetPosition_loop key fuel pos (m.setCur cur) =
        some (getPositionList key pos ns, m.setCur c) := by
  intro fuel
  induction fuel with
  | zero => intro pos cur ns h; simp [traverse_loop] at h
  | succ fuel ih =>
    intro pos cur ns h
    cases cur with
    | none =>
      simp only [traverse_loop, Option.some.injEq] at h
      subst h
      exact ⟨none, by simp [OSStore_GetPosition_loop, getPositionList]⟩
    | some p =>
      simp only [traverse_loop] at h
      cases hp : m.heap[p]? with
      | none => simp [hp] at h
      | some n =>
        simp only [hp, Option.map_eq_some'] at h
        obtain ⟨ns1, h1, rfl⟩ := h
        obtain ⟨c, hc⟩ := ih (pos + 1) n.next ns1 h1
        by_cases hge : strcmp n.key key ≥ 0
        · exact ⟨some p, by
            by_cases hz : strcmp n.key key = 0 <;>
              simp [OSStore_GetPosition_loop, getPositionList, hp, hge, hz]⟩
        · exact ⟨c, by simp [OSStore_GetPosition_loop, getPositionList, hp, hge, hc]⟩

theorem getPosition_eq {m : Mem} {ns : List OSStoreNode} (h : traverse m = some ns)
    (key : List Nat) :
    ∃ c, OSStore_GetPosition (some m) key = some (getPositionList key 1 ns, m.setCur c) :=
  getPosition_loop_eq key m _ _ _ _ h

/-! ## Stores reached by `Put` calls -/

theorem putAll_inv (ops : List (List Nat × Nat)) :
    ∀ {m : Mem} {cs : List Cell}, Inv m cs →
      ∃ m1 cs1, putAll (some m) ops = some m1 ∧ Inv m1 cs1 ∧
        cs1.map Prod.snd = ops.foldl (fun es op => putList op.1 op.2 es) (cs.map Prod.snd) ∧
        m1.list.max_size = m.list.max_size ∧
        m1.list.free_data_function = m.list.free_data_function := by
  induction ops with
  | nil => intro m cs hi; exact ⟨m, cs, rfl, hi, rfl, rfl, rfl⟩
  | cons op ops ih =>
    intro m cs hi
    obtain ⟨m1, cs1, e1, hi1, hcs1, hmax1, hfree1⟩ := put_spec hi op.1 op.2
    obtain ⟨m2, cs2, e2, hi2, hcs2, hmax2, hfree2⟩ := ih hi1
    refine ⟨m2, cs2, ?_, hi2, ?_, hmax2.trans hmax1, hfree2.trans hfree1⟩
    · simp only [putAll, e1, e2]
    · rw [hcs2, hcs1]; rfl

theorem entries_of_inv {m : Mem} {cs : List Cell} (hi : Inv m cs) :
    entries m = some (cs.map Prod.snd) := by
  obtain ⟨ns, ht, hns, _⟩ := traverse_of_inv hi
  simp [entries, ht, hns]

theorem fromPuts_spec (ops : List (List Nat × Nat)) :
    ∃ m cs ns, fromPuts ops = some m ∧ Inv m cs ∧ cs.map Prod.snd = putsList ops ∧
      traverse m = some ns ∧ ns.map OSStoreNode.entry = putsList ops ∧
      (∀ n ∈ ns, n.key_size = n.key.length) ∧
      m.list.currently_size = (ns.length : Int) ∧
      m.list.max_size = 0 ∧ m.list.free_data_function = 0 := by
  obtain ⟨m0, hm0⟩ : ∃ m0, OSStore_Create true = some m0 := ⟨_, rfl⟩
  have h0 : Inv m0 [] := by
    simp only [OSStore_Create, Bool.not_true, Bool.false_eq_true, if_false,
      Option.some.injEq] at hm0
    subst hm0
    exact ⟨⟨rfl, rfl⟩, by simp, rfl⟩
  have hmax0 : m0.list.max_size = 0 ∧ m0.list.free_data_function = 0 := by
    simp only [OSStore_Create, Bool.not_true, Bool.false_eq_true, if_false,
      Option.some.injEq] at hm0
    subst hm0
    exact ⟨rfl, rfl⟩
  obtain ⟨m, cs, e, hi, hcs, hmax, hfree⟩ := putAll_inv ops h0
  rw [hmax0.1] at hmax
  rw [hmax0.2] at hfree
  rw [← hm0] at e
  obtain ⟨ns, ht, hns, hks⟩ := traverse_of_inv hi
  have hcs1 : cs.map Prod.snd = putsList ops := by rw [hcs]; rfl
  refine ⟨m, cs, ns, e, hi, hcs1, ht, ?_, hks, ?_, hmax, hfree⟩
  · rw [hns, hcs1]
  · have : ns.length = cs.length := by
      have := congrArg List.length hns
      simpa using this
    rw [hi.2.2, this]

theorem reach {ops : List (List Nat × Nat)} {m : Mem} (hm : fromPuts ops = some m) :
    ∃ cs ns, Inv m cs ∧ cs.map Prod.snd = putsList ops ∧
      traverse m = some ns ∧ ns.map OSStoreNode.entry = putsList ops ∧
      (∀ n ∈ ns, n.key_size = n.key.length) ∧
      m.list.currently_size = (ns.length : Int) := by
  obtain ⟨m1, cs, ns, e, hi, hcs, ht, hns, hks, hsz, _, _⟩ := fromPuts_spec ops
  rw [hm, Option.some.injEq] at e
  subst e
  exact ⟨cs, ns, hi, hcs, ht, hns, hks, hsz⟩

/-! ## `putList` on ascending sequences -/

theorem CStr.tail {x : Nat} {a : List Nat} (h : CStr (x :: a)) : CStr a :=
  fun c hc => h c (by simp [hc])

theorem strcmp_ne_zero_of_ne {a b : List Nat} (ha : CStr a) (hb : CStr b) (h : a ≠ b) :
    strcmp a b ≠ 0 := fun h0 => h ((strcmp_eq_zero_iff ha hb).1 h0)

theorem strcmp_gt_of_lt {a b : List Nat} (h : strcmp a b < 0) : 0 < strcmp b a := by
  rw [strcmp_swap a b]; omega

theorem strcmp_lt_of_gt {a b : List Nat} (h : 0 < strcmp a b) : strcmp b a < 0 := by
  rw [strcmp_swap a b]; omega

theorem mem_putList {key : List Nat} {data : Nat} {es : List (List Nat × Nat)}
    {e : List Nat × Nat} (h : e ∈ putList key data es) : e = (key, data) ∨ e ∈ es := by
  induction es with
  | nil => simpa [putList] using h
  | cons x es ih =>
    simp only [putList] at h
    split_ifs at h
    · exact Or.inr h
    · rcases List.mem_cons.1 h with h | h
      · exact Or.inl h
      · exact Or.inr h
    · rcases List.mem_cons.1 h with h | h
      · exact Or.inr (by simp [h])
      · rcases ih h with h | h
        · exact Or.inl h
        · exact Or.inr (by simp [h])

theorem sublist_putList (key : List Nat) (data : Nat) (es : List (List Nat × Nat)) :
    List.Sublist es (putList key data es) := by
  induction es with
  | nil => simp
  | cons x es ih =>
    simp only [putList]
    split_ifs
    · exact List.Sublist.refl _
    · exact List.sublist_cons_self _ _
    · exact ih.cons₂ x

theorem key_mem_putList {key : List Nat} (data : Nat) (es : List (List Nat × Nat))
    (hk : CStr key) (hes : CStrKeys es) : key ∈ (putList key data es).map Prod.fst := by
  induction es with
  | nil => simp [putList]
  | cons x es ih =>
    have hx : CStr x.1 := hes x (by simp)
    simp only [putList]
    split_ifs with h1 h2
    · have := (strcmp_eq_zero_iff hx hk).1 h2
      simp [this]
    · simp
    · have := ih (fun p hp => hes p (by simp [hp]))
      simp only [List.map_cons, List.mem_cons]
      exact Or.inr this

theorem putList_cstr {key : List Nat} (data : Nat) {es : List (List Nat × Nat)}
    (hk : CStr key) (hes : CStrKeys es) : CStrKeys (putList key data es) := by
  intro e he
  rcases mem_putList he with rfl | he
  · exact hk
  · exact hes e he

theorem putList_ascending {key : List Nat} (data : Nat) {es : List (List Nat × Nat)}
    (hk : CStr key) (hes : CStrKeys es) (hs : Ascending (es.map Prod.fst)) :
    Ascending ((putList key data es).map Prod.fst) := by
  induction es with
  | nil => simp [putList, Ascending]
  | cons x es ih =>
    have hx : CStr x.1 := hes x (by simp)
    have hes1 : CStrKeys es := fun p hp => hes p (by simp [hp])
    simp only [Ascending, List.map_cons, List.pairwise_cons] at hs
    obtain ⟨hx1, hs1⟩ := hs
    simp only [putList]
    split_ifs with h1 h2
    · simp only [Ascending, List.map_cons, List.pairwise_cons]
      exact ⟨hx1, hs1⟩
    · have hkx : strcmp key x.1 < 0 := strcmp_lt_of_gt (by omega)
      simp only [Ascending, List.map_cons, List.pairwise_cons, List.mem_cons]
      refine ⟨?_, hx1, hs1⟩
      rintro k (rfl | hk1)
      · exact hkx
      · obtain ⟨p, hp, rfl⟩ := List.mem_map.1 hk1
        exact strcmp_trans hk hx (hes1 p hp) hkx (hx1 _ hk1)
    · simp only [Ascending, List.map_cons, List.pairwise_cons]
      refine ⟨?_, ih hes1 hs1⟩
      intro k hk1
      obtain ⟨p, hp, rfl⟩ := List.mem_map.1 hk1
      rcases mem_putList hp with rfl | hp
      · exact not_le.1 h1
      · exact hx1 _ (List.mem_map.2 ⟨p, hp, rfl⟩)

theorem putList_of_mem {key : List Nat} (data : Nat) {es : List (List Nat × Nat)}
    (hes : CStrKeys es) (hs : Ascending (es.map Prod.fst)) (hmem : key ∈ es.map Prod.fst) :
    putList key data es = es := by
  induction es with
  | nil => simp at hmem
  | cons x es ih =>
    have hx : CStr x.1 := hes x (by simp)
    have hes1 : CStrKeys es := fun p hp => hes p (by simp [hp])
    simp only [Ascending, List.map_cons, List.pairwise_cons] at hs
    obtain ⟨hx1, hs1⟩ := hs
    simp only [List.map_cons, List.mem_cons] at hmem
    simp only [putList]
    split_ifs with h1 h2
    · rfl
    · exfalso
      rcases hmem with rfl | hmem
      · exact h2 (strcmp_self hx)
      · have := hx1 _ hmem
        omega
    · rcases hmem with rfl | hmem
      · exact absurd (strcmp_self hx) (by omega)
      · rw [ih hes1 hs1 hmem]

theorem putList_of_not_mem {key : List Nat} (data : Nat) {es : List (List Nat × Nat)}
    (hk : CStr key) (hes : CStrKeys es) (hmem : key ∉ es.map Prod.fst) :
    putList key data es =
      es.takeWhile (fun e => decide (¬ 0 < strcmp e.1 key)) ++
        (key, data) :: es.dropWhile (fun e => decide (¬ 0 < strcmp e.1 key)) := by
  induction es with
  | nil => simp [putList]
  | cons x es ih =>
    have hx : CStr x.1 := hes x (by simp)
    have hes1 : CStrKeys es := fun p hp => hes p (by simp [hp])
    simp only [List.map_cons, List.mem_cons, not_or] at hmem
    have hne : strcmp x.1 key ≠ 0 := strcmp_ne_zero_of_ne hx hk (fun h => hmem.1 h.symm)
    simp only [putList]
    split_ifs with h1
    · have : 0 < strcmp x.1 key := by omega
      simp [List.takeWhile, List.dropWhile, this]
    · have : ¬ 0 < strcmp x.1 key := by omega
      simp [List.takeWhile, List.dropWhile, this, ih hes1 hmem.2]

/-! ## The first value put under a key -/

theorem firstValue_eq_none_iff {key : List Nat} {es : List (List Nat × Nat)} :
    firstValue key es = none ↔ key ∉ es.map Prod.fst := by
  induction es with
  | nil => simp [firstValue]
  | cons x es ih =>
    simp only [firstValue, List.map_cons, List.mem_cons, not_or]
    split_ifs with h
    · simp [h]
    · rw [ih]
      exact ⟨fun h1 => ⟨fun h2 => h h2.symm, h1⟩, fun h1 => h1.2⟩

theorem firstValue_putList_ne {k key : List Nat} (data : Nat) (es : List (List Nat × Nat))
    (hne : key ≠ k) : firstValue k (putList key data es) = firstValue k es := by
  induction es with
  | nil => simp [putList, firstValue, hne]
  | cons x es ih =>
    simp only [putList]
    split_ifs
    · rfl
    · simp [firstValue, hne]
    · simp [firstValue, ih]

theorem firstValue_putList_self {key : List Nat} (data : Nat) {es : List (List Nat × Nat)}
    (hk : CStr key) (hes : CStrKeys es) (hmem : key ∉ es.map Prod.fst) :
    firstValue key (putList key data es) = some data := by
  rw [putList_of_not_mem data hk hes hmem]
  have h1 : firstValue key (es.takeWhile (fun e => decide (¬ 0 < strcmp e.1 key))) = none := by
    rw [firstValue_eq_none_iff]
    intro h
    obtain ⟨p, hp, rfl⟩ := List.mem_map.1 h
    exact hmem (List.mem_map.2 ⟨p, List.takeWhile_subset _ hp, rfl⟩)
  generalize es.takeWhile (fun e => decide (¬ 0 < strcmp e.1 key)) = l1 at h1
  induction l1 with
  | nil => simp [firstValue]
  | cons x l1 ih =>
    simp only [firstValue] at h1
    split_ifs at h1 with hx
    simp only [List.cons_append, firstValue, hx, if_false]
    exact ih h1

theorem foldl_putList_spec (ops : List (List Nat × Nat)) :
    ∀ es : List (List Nat × Nat), CStrKeys ops → CStrKeys es → Ascending (es.map Prod.fst) →
      CStrKeys (ops.foldl (fun es op => putList op.1 op.2 es) es) ∧
      Ascending ((ops.foldl (fun es op => putList op.1 op.2 es) es).map Prod.fst) ∧
      (∀ k, k ∈ (ops.foldl (fun es op => putList op.1 op.2 es) es).map Prod.fst ↔
        k ∈ es.map Prod.fst ∨ k ∈ ops.map Prod.fst) ∧
      (∀ k v, firstValue k es = some v →
        firstValue k (ops.foldl (fun es op => putList op.1 op.2 es) es) = some v) ∧
      (∀ k, firstValue k es = none →
        firstValue k (ops.foldl (fun es op => putList op.1 op.2 es) es) =
          firstValue k ops) := by
  induction ops with
  | nil =>
    intro es _ hes hs
    refine ⟨hes, hs, by simp, fun k v h => h, fun k h => ?_⟩
    simpa [firstValue] using h
  | cons op ops ih =>
    intro es hops hes hs
    have hop : CStr op.1 := hops op (by simp)
    have hops1 : CStrKeys ops := fun p hp => hops p (by simp [hp])
    obtain ⟨h1, h2, h3, h4, h5⟩ := ih (putList op.1 op.2 es) hops1 (putList_cstr op.2 hop hes)
      (putList_ascending op.2 hop hes hs)
    simp only [List.foldl_cons]
    refine ⟨h1, h2, ?_, ?_, ?_⟩
    · intro k
      rw [h3 k]
      simp only [List.map_cons, List.mem_cons]
      constructor
      · rintro (h | h)
        · obtain ⟨p, hp, rfl⟩ := List.mem_map.1 h
          rcases mem_putList hp with rfl | hp
          · exact Or.inr (Or.inl rfl)
          · exact Or.inl (List.mem_map.2 ⟨p, hp, rfl⟩)
        · exact Or.inr (Or.inr h)
      · rintro (h | rfl | h)
        · obtain ⟨p, hp, rfl⟩ := List.mem_map.1 h
          exact Or.inl (List.mem_map.2 ⟨p, (sublist_putList op.1 op.2 es).subset hp, rfl⟩)
        · exact Or.inl (key_mem_putList op.2 es hop hes)
        · exact Or.inr h
    · intro k v hkv
      apply h4
      by_cases hk : op.1 = k
      · subst hk
        have hmem : op.1 ∈ es.map Prod.fst := by
          by_contra hc
          rw [firstValue_eq_none_iff.2 hc] at hkv
          exact absurd hkv (by simp)
        rw [putList_of_mem op.2 hes hs hmem]
        exact hkv
      · rw [firstValue_putList_ne op.2 es hk]
        exact hkv
    · intro k hk
      by_cases hkop : op.1 = k
      · subst hkop
        have h6 := h4 op.1 op.2
          (firstValue_putList_self op.2 hop hes (firstValue_eq_none_iff.1 hk))
        rw [h6]
        simp [firstValue]
      · rw [h5 k (by rw [firstValue_putList_ne op.2 es hkop]; exact hk)]
        simp [firstValue, hkop]

theorem putsList_spec {ops : List (List Nat × Nat)} (hops : CStrKeys ops) :
    CStrKeys (putsList ops) ∧ Ascending ((putsList ops).map Prod.fst) ∧
      (∀ k, k ∈ (putsList ops).map Prod.fst ↔ k ∈ ops.map Prod.fst) ∧
      (∀ k, firstValue k (putsList ops) = firstValue k ops) := by
  obtain ⟨h1, h2, h3, _, h5⟩ := foldl_putList_spec ops [] hops (fun p hp => by simp at hp)
    (by simp [Ascending])
  refine ⟨h1, h2, ?_, fun k => h5 k rfl⟩
  intro k
  have := h3 k
  simpa using this

/-! ## The list versions of the scans on ascending chains -/

theorem map_entry_fst (ns : List OSStoreNode) :
    (ns.map OSStoreNode.entry).map Prod.fst = ns.map OSStoreNode.key := by
  induction ns with
  | nil => rfl
  | cons n ns ih => simp [OSStoreNode.entry]

theorem scans_absent {key : List Nat} {ns : List OSStoreNode} (hk : CStr key)
    (hns : ∀ n ∈ ns, CStr n.key) (hmem : key ∉ ns.map OSStoreNode.key) :
    getList key ns = 0 ∧ checkList key ns = 0 ∧ ∀ pos, getPositionList key pos ns = 0 := by
  induction ns with
  | nil => simp [getList, checkList, getPositionList]
  | cons n ns ih =>
    simp only [List.map_cons, List.mem_cons, not_or] at hmem
    have hne : strcmp n.key key ≠ 0 :=
      strcmp_ne_zero_of_ne (hns n (by simp)) hk (fun h => hmem.1 h.symm)
    obtain ⟨h1, h2, h3⟩ := ih (fun x hx => hns x (by simp [hx])) hmem.2
    refine ⟨?_, ?_, fun pos => ?_⟩
    · simp only [getList, hne, if_false]; split_ifs <;> simp [h1]
    · simp only [checkList, hne, if_false]; split_ifs <;> simp [h2]
    · simp only [getPositionList, hne, if_false]; split_ifs <;> simp [h3]

theorem scans_present (key : List Nat) {ns : List OSStoreNode}
    (hns : ∀ n ∈ ns, CStr n.key) (hs : Ascending (ns.map OSStoreNode.key))
    (hmem : key ∈ ns.map OSStoreNode.key) :
    firstValue key (ns.map OSStoreNode.entry) = some (getList key ns) ∧
      checkList key ns = 1 ∧
      ∀ pos, getPositionList key pos ns = pos +
        (((ns.map OSStoreNode.key).filter (fun k => decide (strcmp k key < 0))).length : Int) := by
  induction ns with
  | nil => simp at hmem
  | cons n ns ih =>
    have hn : CStr n.key := hns n (by simp)
    have hns1 : ∀ x ∈ ns, CStr x.key := fun x hx => hns x (by simp [hx])
    simp only [Ascending, List.map_cons, List.pairwise_cons] at hs
    obtain ⟨hn1, hs1⟩ := hs
    by_cases hk : n.key = key
    · subst hk
      have h0 : strcmp n.key n.key = 0 := strcmp_self hn
      have hfil : (ns.map OSStoreNode.key).filter (fun k => decide (strcmp k n.key < 0)) = [] := by
        rw [List.filter_eq_nil_iff]
        intro k hk
        have := strcmp_gt_of_lt (hn1 k hk)
        simp only [decide_eq_true_eq, not_lt]
        omega
      refine ⟨?_, ?_, fun pos => ?_⟩
      · simp [firstValue, OSStoreNode.entry, getList, h0]
      · simp [checkList, h0]
      · simp [getPositionList, h0, List.filter_cons, hfil]
    · have hmem1 : key ∈ ns.map OSStoreNode.key := by
        simp only [List.map_cons, List.mem_cons] at hmem
        rcases hmem with h | h
        · exact absurd h.symm hk
        · exact h
      have hlt : strcmp n.key key < 0 := hn1 key hmem1
      have hge : ¬ strcmp n.key key ≥ 0 := not_le.2 hlt
      obtain ⟨h1, h2, h3⟩ := ih hns1 hs1 hmem1
      refine ⟨?_, ?_, fun pos => ?_⟩
      · simp [firstValue, OSStoreNode.entry, getList, hge, hk]
        simpa [OSStoreNode.entry] using h1
      · simp [checkList, hge, h2]
      · simp only [getPositionList, hge, if_false, h3, List.map_cons, List.filter_cons, hlt,
          decide_True, if_true, List.length_cons]
        push_cast
        ring

/-! ## The bounded comparisons -/

theorem strncmp_eq_zero_iff {e : List Nat} (he : CStr e) (p : List Nat) :
    strncmp e p e.length = 0 ↔ p.take e.length = e := by
  induction e generalizing p with
  | nil => simp [strncmp]
  | cons a e ih =>
    have ha := (he a (by simp)).1
    have ha0 : a ≠ 0 := by omega
    cases p with
    | nil => simp [strncmp, ha0]
    | cons b p =>
      simp only [List.length_cons, strncmp, List.headD_cons, List.tail_cons, List.take_succ_cons,
        List.cons.injEq]
      by_cases hab : a = b
      · subst hab
        simp [ha0, ih he.tail p]
      · have hba : ¬ b = a := fun h => hab h.symm
        simp [hab, hba]
        omega

theorem strcmp_lt_of_strncmp_pos {e : List Nat} (he : CStr e) :
    ∀ (e1 p : List Nat), 0 < strncmp e p e.length → p.take e1.length = e1 →
      strcmp e1 e < 0 := by
  induction e with
  | nil => intro e1 p h _; simp [strncmp] at h
  | cons a e ih =>
    intro e1 p h hp
    have ha := (he a (by simp)).1
    have ha0 : a ≠ 0 := by omega
    cases e1 with
    | nil => simp [strcmp]; omega
    | cons c e1 =>
      cases p with
      | nil => simp at hp
      | cons b p =>
        simp only [List.length_cons, List.take_succ_cons, List.cons.injEq] at hp
        obtain ⟨rfl, hp⟩ := hp
        simp only [List.length_cons, strncmp, List.headD_cons, List.tail_cons] at h
        simp only [strcmp]
        by_cases hab : a = b
        · subst hab
          simp only [ne_eq, not_true_eq_false, if_false, ha0] at h ⊢
          exact ih he.tail e1 p h hp
        · have hba : ¬ b = a := fun h => hab h.symm
          simp only [ne_eq, hab, not_false_eq_true, if_true] at h
          simp only [ne_eq, hba, not_false_eq_true, if_true]
          omega

theorem tolower_zero : tolower 0 = 0 := by decide

theorem tolower_ne_zero {c : Nat} (h : c ≠ 0) : tolower c ≠ 0 := by
  unfold tolower; split_ifs <;> omega

theorem strncasecmp_eq_zero_iff {e : List Nat} (he : CStr e) (p : List Nat) :
    strncasecmp e p e.length = 0 ↔ (p.take e.length).map tolower = e.map tolower := by
  induction e generalizing p with
  | nil => simp [strncasecmp]
  | cons a e ih =>
    have ha := (he a (by simp)).1
    have ha0 : tolower a ≠ 0 := tolower_ne_zero (by omega)
    cases p with
    | nil => simp [strncasecmp, tolower_zero, ha0]
    | cons b p =>
      simp only [List.length_cons, strncasecmp, List.headD_cons, List.tail_cons,
        List.take_succ_cons, List.map_cons, List.cons.injEq]
      by_cases hab : tolower a = tolower b
      · have hb0 : tolower b ≠ 0 := hab ▸ ha0
        simp [hab, hb0, ih he.tail p]
      · have hba : ¬ tolower b = tolower a := fun h => hab h.symm
        simp [hab, hba]
        omega

theorem ncheckList_spec (probe : List Nat) {ns : List OSStoreNode}
    (hns : ∀ n ∈ ns, CStr n.key ∧ n.key_size = n.key.length)
    (hs : Ascending (ns.map OSStoreNode.key)) :
    (ncheckList probe ns = 1 ∨ ncheckList probe ns = 0) ∧
      (ncheckList probe ns = 1 ↔ ∃ n ∈ ns, probe.take n.key_size = n.key) := by
  induction ns with
  | nil => simp [ncheckList]
  | cons n ns ih =>
    obtain ⟨hn, hsz⟩ := hns n (by simp)
    have hns1 : ∀ x ∈ ns, CStr x.key ∧ x.key_size = x.key.length :=
      fun x hx => hns x (by simp [hx])
    simp only [Ascending, List.map_cons, List.pairwise_cons] at hs
    obtain ⟨hn1, hs1⟩ := hs
    obtain ⟨ih1, ih2⟩ := ih hns1 hs1
    have hz := strncmp_eq_zero_iff hn probe
    rw [← hsz] at hz
    simp only [ncheckList, List.mem_cons, exists_eq_or_imp]
    by_cases h0 : strncmp n.key probe n.key_size = 0
    · simp [h0, hz.1 h0]
    · have hnm : ¬ probe.take n.key_size = n.key := fun h => h0 (hz.2 h)
      by_cases hge : strncmp n.key probe n.key_size ≥ 0
      · simp only [hge, h0, if_true, if_false, hnm, false_or]
        refine ⟨by simp, ⟨fun h => absurd h (by simp), ?_⟩⟩
        rintro ⟨x, hx, hpx⟩
        exfalso
        have hpos : 0 < strncmp n.key probe n.key.length := by rw [← hsz]; omega
        rw [(hns1 x hx).2] at hpx
        have h1 := strcmp_lt_of_strncmp_pos hn x.key probe hpos hpx
        have h2 := hn1 x.key (List.mem_map.2 ⟨x, hx, rfl⟩)
        have h3 := strcmp_gt_of_lt h2
        omega
      · simp only [hge, if_false, hnm, false_or]
        exact ⟨ih1, ih2⟩

theorem ncaseCheckList_spec (probe : List Nat) {ns : List OSStoreNode}
    (hns : ∀ n ∈ ns, CStr n.key ∧ n.key_size = n.key.length) :
    (ncaseCheckList probe ns = 1 ∨ ncaseCheckList probe ns = 0) ∧
      (ncaseCheckList probe ns = 1 ↔
        ∃ n ∈ ns, (probe.take n.key_size).map tolower = n.key.map tolower) := by
  induction ns with
  | nil => simp [ncaseCheckList]
  | cons n ns ih =>
    obtain ⟨hn, hsz⟩ := hns n (by simp)
    obtain ⟨ih1, ih2⟩ := ih (fun x hx => hns x (by simp [hx]))
    have hz := strncasecmp_eq_zero_iff hn probe
    rw [← hsz] at hz
    simp only [ncaseCheckList, List.mem_cons, exists_eq_or_imp]
    by_cases h0 : strncasecmp n.key probe n.key_size = 0
    · simp [h0, hz.1 h0]
    · have hnm : ¬ (probe.take n.key_size).map tolower = n.key.map tolower :=
        fun h => h0 (hz.2 h)
      simp only [h0, if_false, hnm, false_or]
      exact ⟨ih1, ih2⟩

theorem ascending_nodup {ks : List (List Nat)} (hc : ∀ k ∈ ks, CStr k) (hs : Ascending ks) :
    ks.Nodup := by
  refine List.Pairwise.imp_of_mem ?_ hs
  intro a b ha _ hlt heq
  subst heq
  rw [strcmp_self (hc a ha)] at hlt
  exact absurd hlt (by decide)

theorem firstValue_append_of_not_mem {k : List Nat} {pre rest : List (List Nat × Nat)}
    (h : ∀ p ∈ pre, p.1 ≠ k) : firstValue k (pre ++ rest) = firstValue k rest := by
  induction pre with
  | nil => rfl
  | cons x pre ih =>
    simp only [List.cons_append, firstValue, h x (by simp), if_false]
    exact ih (fun p hp => h p (by simp [hp]))

theorem nodes_of_entries {ns : List OSStoreNode} {es : List (List Nat × Nat)}
    (h : ns.map OSStoreNode.entry = es) (hes : CStrKeys es) :
    (∀ n ∈ ns, CStr n.key) ∧ ns.map OSStoreNode.key = es.map Prod.fst := by
  subst h
  refine ⟨fun n hn => hes n.entry (List.mem_map.2 ⟨n, hn, rfl⟩), (map_entry_fst ns).symm⟩

theorem reach_nodes {ops : List (List Nat × Nat)} {m : Mem} (hops : CStrKeys ops)
    (hm : fromPuts ops = some m) :
    ∃ ns, traverse m = some ns ∧ ns.map OSStoreNode.entry = putsList ops ∧
      (∀ n ∈ ns, CStr n.key ∧ n.key_size = n.key.length) ∧
      Ascending (ns.map OSStoreNode.key) ∧
      (∀ k, k ∈ ns.map OSStoreNode.key ↔ k ∈ ops.map Prod.fst) ∧
      (∀ k, firstValue k (ns.map OSStoreNode.entry) = firstValue k ops) := by
  obtain ⟨cs, ns, _, _, ht, hns, hks, _⟩ := reach hm
  obtain ⟨h1, h2, h3, h4⟩ := putsList_spec hops
  obtain ⟨hc, hkeys⟩ := nodes_of_entries hns h1
  refine ⟨ns, ht, hns, fun n hn => ⟨hc n hn, hks n hn⟩, by rw [hkeys]; exact h2, ?_, ?_⟩
  · intro k; rw [hkeys]; exact h3 k
  · intro k; rw [hns]; exact h4 k

/-! ## Stores reached by arbitrary calls -/

theorem putsOf_cons (c : Call) (rest : List Call) :
    putsOf (c :: rest) = putsOf [c] ++ putsOf rest := by
  cases c with
  | Put calloc_ok key data => cases calloc_ok <;> simp [putsOf]
  | _ => simp [putsOf]

theorem call_inv {m : Mem} {cs : List Cell} (hi : Inv m cs) (c : Call) :
    ∃ m1 cs1, call (some m) c = some m1 ∧ Inv m1 cs1 ∧
      cs1.map Prod.snd =
        (putsOf [c]).foldl (fun es op => putList op.1 op.2 es) (cs.map Prod.snd) ∧
      ((∀ x, c ≠ Call.SetMaxSize x) → m1.list.max_size = m.list.max_size) := by
  obtain ⟨ns, ht, _, _⟩ := traverse_of_inv hi
  cases c with
  | Put calloc_ok key data =>
    cases calloc_ok with
    | false => exact ⟨m, cs, rfl, hi, rfl, fun _ => rfl⟩
    | true =>
      obtain ⟨m1, cs1, e1, hi1, hcs1, hmx, _⟩ := put_spec hi key data
      exact ⟨m1, cs1, by simp [call, e1], hi1, by simp [putsOf, hcs1], fun _ => hmx⟩
  | SetMaxSize max_size =>
    by_cases h : max_size ≤ 1
    · exact ⟨m, cs, by simp [call, OSStore_SetMaxSize, h], hi, rfl, fun _ => rfl⟩
    · exact ⟨{ m with list := { m.list with max_size := max_size } }, cs,
        by simp [call, OSStore_SetMaxSize, h], ⟨hi.1, hi.2.1, hi.2.2⟩, rfl,
        fun hx => absurd rfl (hx max_size)⟩
  | SetFreeDataPointer f =>
    exact ⟨{ m with list := { m.list with free_data_function := f } }, cs,
      by simp [call, OSStore_SetFreeDataPointer], ⟨hi.1, hi.2.1, hi.2.2⟩, rfl, fun _ => rfl⟩
  | Delete key => exact ⟨m, cs, rfl, hi, rfl, fun _ => rfl⟩
  | Get key =>
    obtain ⟨c, hc⟩ := get_eq ht key
    exact ⟨m.setCur c, cs, by simp [call, hc], ⟨hi.1, hi.2.1, hi.2.2⟩, rfl, fun _ => rfl⟩
  | GetPosition key =>
    obtain ⟨c, hc⟩ := getPosition_eq ht key
    exact ⟨m.setCur c, cs, by simp [call, hc], ⟨hi.1, hi.2.1, hi.2.2⟩, rfl, fun _ => rfl⟩
  | Check key =>
    obtain ⟨c, hc⟩ := check_eq ht key
    exact ⟨m.setCur c, cs, by simp [call, hc], ⟨hi.1, hi.2.1, hi.2.2⟩, rfl, fun _ => rfl⟩
  | NCheck key =>
    obtain ⟨c, hc⟩ := ncheck_eq ht key
    exact ⟨m.setCur c, cs, by simp [call, hc], ⟨hi.1, hi.2.1, hi.2.2⟩, rfl, fun _ => rfl⟩
  | NCaseCheck key =>
    obtain ⟨c, hc⟩ := ncaseCheck_eq ht key
    exact ⟨m.setCur c, cs, by simp [call, hc], ⟨hi.1, hi.2.1, hi.2.2⟩, rfl, fun _ => rfl⟩

theorem callAll_inv (calls : List Call) :
    ∀ {m : Mem} {cs : List Cell}, Inv m cs →
      ∃ m1 cs1, callAll (some m) calls = some m1 ∧ Inv m1 cs1 ∧
        cs1.map Prod.snd =
          (putsOf calls).foldl (fun es op => putList op.1 op.2 es) (cs.map Prod.snd) ∧
        ((∀ c ∈ calls, ∀ x, c ≠ Call.SetMaxSize x) →
          m1.list.max_size = m.list.max_size) := by
  induction calls with
  | nil => intro m cs hi; exact ⟨m, cs, rfl, hi, rfl, fun _ => rfl⟩
  | cons c calls ih =>
    intro m cs hi
    obtain ⟨m1, cs1, e1, hi1, hcs1, hmx1⟩ := call_inv hi c
    obtain ⟨m2, cs2, e2, hi2, hcs2, hmx2⟩ := ih hi1
    refine ⟨m2, cs2, by simp only [callAll, e1, e2], hi2, ?_, ?_⟩
    · rw [hcs2, hcs1, putsOf_cons c calls, List.foldl_append]
    · intro h
      rw [hmx2 (fun d hd => h d (by simp [hd])), hmx1 (h c (by simp))]

theorem callAll_append (list : Option Mem) (xs ys : List Call) :
    callAll list (xs ++ ys) = callAll (callAll list xs) ys := by
  induction xs generalizing list with
  | nil => rfl
  | cons c xs ih => exact ih (call list c)

theorem create_inv {m0 : Mem} (hm0 : OSStore_Create true = some m0) : Inv m0 [] := by
  simp only [OSStore_Create, Bool.not_true, Bool.false_eq_true, if_false,
    Option.some.injEq] at hm0
  subst hm0
  exact ⟨⟨rfl, rfl⟩, by simp, rfl⟩

theorem callAll_spec (calls : List Call) :
    ∃ m cs, callAll (OSStore_Create true) calls = some m ∧ Inv m cs ∧
      cs.map Prod.snd = putsList (putsOf calls) := by
  obtain ⟨m0, hm0⟩ : ∃ m0, OSStore_Create true = some m0 := ⟨_, rfl⟩
  obtain ⟨m, cs, e, hi, hcs, _⟩ := callAll_inv calls (create_inv hm0)
  rw [← hm0] at e
  exact ⟨m, cs, e, hi, by rw [hcs]; rfl⟩

theorem callAll_reach {calls : List Call} {m : Mem}
    (hm : callAll (OSStore_Create true) calls = some m) :
    ∃ cs, Inv m cs ∧ cs.map Prod.snd = putsList (putsOf calls) := by
  obtain ⟨m1, cs, e, hi, hcs⟩ := callAll_spec calls
  rw [hm, Option.some.injEq] at e
  subst e
  exact ⟨cs, hi, hcs⟩

theorem put_new_of_inv {m : Mem} {cs : List Cell} (hi : Inv m cs) {key : List Nat}
    (data : Nat) (hk : CStr key) (hes : CStrKeys (cs.map Prod.snd))
    (hnew : key ∉ (cs.map Prod.snd).map Prod.fst) :
    ∃ m1 cs1, OSStore_Put true (some m) key data = some (1, some m1) ∧ Inv m1 cs1 ∧
      cs1.map Prod.snd =
        (cs.map Prod.snd).takeWhile (fun e => decide (¬ 0 < strcmp e.1 key)) ++
          (key, data) :: (cs.map Prod.snd).dropWhile (fun e => decide (¬ 0 < strcmp e.1 key)) ∧
      cs1.map Prod.snd = putList key data (cs.map Prod.snd) ∧
      m1.list.currently_size = m.list.currently_size + 1 ∧
      m1.list.max_size = m.list.max_size ∧
      m1.list.free_data_function = m.list.free_data_function := by
  obtain ⟨m1, cs1, e1, hi1, hcs1, hmax, hfree⟩ := put_spec hi key data
  have hput := putList_of_not_mem data hk hes hnew
  refine ⟨m1, cs1, e1, hi1, by rw [hcs1, hput], hcs1, ?_, hmax, hfree⟩
  have hl : cs1.length = cs.length + 1 := by
    have h1 := congrArg List.length hcs1
    rw [hput] at h1
    have h3 := congrArg List.length (List.takeWhile_append_dropWhile
      (fun e => decide (¬ 0 < strcmp e.1 key)) (cs.map Prod.snd))
    simp only [List.length_map, List.length_append, List.length_cons] at h1 h3
    omega
  rw [hi1.2.2, hi.2.2, hl]
  push_cast
  rfl

/-! ## The chain in both directions -/

theorem walk_next_of_dllseg {h : List OSStoreNode} (cs : List Cell) :
    ∀ {pv f l} (fuel : Nat), dllseg h pv f cs l none → cs.length < fuel →
      walk h OSStoreNode.next fuel f = some (cs.map Prod.fst) := by
  induction cs with
  | nil =>
    intro pv f l fuel hs hfuel
    obtain ⟨hf, _⟩ := hs
    subst hf
    cases fuel with
    | zero => simp at hfuel
    | succ fuel => simp [walk]
  | cons c cs ih =>
    intro pv f l fuel hs hfuel
    obtain ⟨hf, n, hn, _, _, _, hrest⟩ := hs
    subst hf
    cases fuel with
    | zero => simp at hfuel
    | succ fuel =>
      simp [walk, hn, ih fuel hrest (by simpa using hfuel)]

theorem walk_prev_of_dllseg {h : List OSStoreNode} (cs : List Cell) :
    ∀ (f l nx : Option Nat) (fuel : Nat), dllseg h none f cs l nx → cs.length < fuel →
      walk h OSStoreNode.prev fuel l = some (cs.map Prod.fst).reverse := by
  induction cs using List.reverseRecOn with
  | nil =>
    intro f l nx fuel hs hfuel
    obtain ⟨_, hl⟩ := hs
    subst hl
    cases fuel with
    | zero => simp at hfuel
    | succ fuel => simp [walk]
  | append_singleton cs q ih =>
    intro f l nx fuel hs hfuel
    obtain ⟨ml, mf, hpre, hq⟩ := dllseg_append.1 hs
    obtain ⟨_, n, hn, _, _, hnp, _, hl⟩ := hq
    subst hl
    cases fuel with
    | zero => simp at hfuel
    | succ fuel =>
      have hlen : cs.length < fuel := by
        simp only [List.length_append, List.length_cons, List.length_nil] at hfuel
        omega
      simp [walk, hn, hnp, ih f ml mf fuel hpre hlen]

theorem dllseg_adjacent {h : List OSStoreNode} (cs : List Cell) :
    ∀ {pv f l}, dllseg h pv f cs l none → ∀ c ∈ cs, ∃ n, h[c.1]? = some n ∧
      ∀ q, n.next = some q → ∃ nq, h[q]? = some nq ∧ nq.prev = some c.1 := by
  induction cs with
  | nil => intro pv f l _ c hc; simp at hc
  | cons d cs ih =>
    intro pv f l hs c hc
    obtain ⟨_, n, hn, _, _, _, hrest⟩ := hs
    rcases List.mem_cons.1 hc with rfl | hc
    · refine ⟨n, hn, ?_⟩
      intro q hq
      cases cs with
      | nil =>
        obtain ⟨hnx, _⟩ := hrest
        rw [hnx] at hq
        exact absurd hq (by simp)
      | cons e cs =>
        obtain ⟨hnx, ne, hne, _, _, hep, _⟩ := hrest
        rw [hnx, Option.some.injEq] at hq
        subst hq
        exact ⟨ne, hne, hep⟩
    · exact ih hrest c hc

theorem chain_of_inv {m : Mem} {cs : List Cell} (hi : Inv m cs) :
    forward m = some (cs.map Prod.fst) ∧ backward m = some (cs.map Prod.fst).reverse ∧
      m.list.first_node = (cs.map Prod.fst).head? ∧
      m.list.last_node = (cs.map Prod.fst).getLast? ∧
      (∀ f, m.list.first_node = some f → ∃ n, m.heap[f]? = some n ∧ n.prev = none) ∧
      (∀ l, m.list.last_node = some l → ∃ n, m.heap[l]? = some n ∧ n.next = none) := by
  have hlen := Nat.lt_succ_of_le hi.length_le
  refine ⟨walk_next_of_dllseg cs _ hi.1 hlen, walk_prev_of_dllseg cs _ _ _ _ hi.1 hlen,
    ?_, ?_, ?_, ?_⟩
  · cases cs with
    | nil => exact hi.1.1
    | cons c cs => exact hi.1.1
  · rcases List.eq_nil_or_concat cs with rfl | ⟨cs1, q, hq⟩
    · exact hi.1.2
    · rw [List.concat_eq_append] at hq
      subst hq
      obtain ⟨ml, mf, _, hq1⟩ := dllseg_append.1 hi.1
      obtain ⟨_, n, _, _, _, _, _, hl⟩ := hq1
      simp [hl]
  · intro f hf
    cases cs with
    | nil => rw [hi.1.1] at hf; exact absurd hf (by simp)
    | cons c cs =>
      obtain ⟨hfc, n, hn, _, _, hnp, _⟩ := hi.1
      rw [hfc, Option.some.injEq] at hf
      subst hf
      exact ⟨n, hn, hnp⟩
  · intro l hl
    rcases List.eq_nil_or_concat cs with rfl | ⟨cs1, q, hq⟩
    · rw [hi.1.2] at hl; exact absurd hl (by simp)
    · rw [List.concat_eq_append] at hq
      subst hq
      obtain ⟨ml, mf, _, hq1⟩ := dllseg_append.1 hi.1
      obtain ⟨_, n, hn, _, _, _, hnx, hlq⟩ := hq1
      rw [hlq, Option.some.injEq] at hl
      subst hl
      exact ⟨n, hn, hnx⟩

/-! ## Ascending sequences are determined by their members -/

theorem ascending_unique {l1 : List (List Nat)} :
    ∀ {l2 : List (List Nat)}, (∀ k ∈ l1, CStr k) → Ascending l1 → Ascending l2 →
      (∀ k, k ∈ l1 ↔ k ∈ l2) → l1 = l2 := by
  induction l1 with
  | nil =>
    intro l2 _ _ _ hmem
    cases l2 with
    | nil => rfl
    | cons b l2 => exact absurd ((hmem b).2 (by simp)) (by simp)
  | cons a l1 ih =>
    intro l2 hc h1 h2 hmem
    cases l2 with
    | nil => exact absurd ((hmem a).1 (by simp)) (by simp)
    | cons b l2 =>
      simp only [Ascending, List.pairwise_cons] at h1 h2
      obtain ⟨ha, h1⟩ := h1
      obtain ⟨hb, h2⟩ := h2
      have hab : a = b := by
        rcases List.mem_cons.1 ((hmem a).1 (by simp)) with h | h
        · exact h
        · rcases List.mem_cons.1 ((hmem b).2 (by simp)) with h3 | h3
          · exact h3.symm
          · have h4 := hb a h
            have h5 := strcmp_gt_of_lt (ha b h3)
            omega
      subst hab
      have haa : ¬ strcmp a a < 0 := by rw [strcmp_self (hc a (by simp))]; decide
      congr 1
      refine ih (fun k hk => hc k (by simp [hk])) h1 h2 (fun k => ?_)
      constructor
      · intro hk
        rcases List.mem_cons.1 ((hmem k).1 (by simp [hk])) with h | h
        · subst h; exact absurd (ha k hk) haa
        · exact h
      · intro hk
        rcases List.mem_cons.1 ((hmem k).2 (by simp [hk])) with h | h
        · subst h; exact absurd (hb k hk) haa
        · exact h

theorem firstValue_of_mem {es : List (List Nat × Nat)} (hnd : (es.map Prod.fst).Nodup)
    {e : List Nat × Nat} (he : e ∈ es) : firstValue e.1 es = some e.2 := by
  induction es with
  | nil => simp at he
  | cons x es ih =>
    simp only [List.map_cons, List.nodup_cons] at hnd
    simp only [firstValue]
    rcases List.mem_cons.1 he with rfl | he
    · simp
    · have hne : x.1 ≠ e.1 := by
        intro h
        exact hnd.1 (h ▸ List.mem_map.2 ⟨e, he, rfl⟩)
      simp only [hne, if_false]
      exact ih hnd.2 he

/-! ## The scans change the cursor only -/

theorem get_loop_frame (key : List Nat) :
    ∀ (fuel : Nat) (m : Mem) (r : Nat) (m1 : Mem),
      OSStore_Get_loop key fuel m = some (r, m1) → ∃ c, m1 = m.setCur c := by
  intro fuel
  induction fuel with
  | zero => intro m r m1 h; simp [OSStore_Get_loop] at h
  | succ fuel ih =>
    intro m r m1 h
    simp only [OSStore_Get_loop] at h
    cases hcur : m.list.cur_node with
    | none =>
      simp only [hcur, Option.some.injEq, Prod.mk.injEq] at h
      exact ⟨m.list.cur_node, h.2.symm⟩
    | some p =>
      simp only [hcur] at h
      cases hp : m.heap[p]? with
      | none => simp [hp] at h
      | some n =>
        simp only [hp] at h
        split_ifs at h
        · simp only [Option.some.injEq, Prod.mk.injEq] at h
          exact ⟨m.list.cur_node, h.2.symm⟩
        · simp only [Option.some.injEq, Prod.mk.injEq] at h
          exact ⟨m.list.cur_node, h.2.symm⟩
        · obtain ⟨c, hc⟩ := ih _ _ _ h
          exact ⟨c, hc⟩

theorem check_loop_frame (key : List Nat) :
    ∀ (fuel : Nat) (m : Mem) (r : Int) (m1 : Mem),
      OSStore_Check_loop key fuel m = some (r, m1) → ∃ c, m1 = m.setCur c := by
  intro fuel
  induction fuel with
  | zero => intro m r m1 h; simp [OSStore_Check_loop] at h
  | succ fuel ih =>
    intro m r m1 h
    simp only [OSStore_Check_loop] at h
    cases hcur : m.list.cur_node with
    | none =>
      simp only [hcur, Option.some.injEq, Prod.mk.injEq] at h
      exact ⟨m.list.cur_node, h.2.symm⟩
    | some p =>
      simp only [hcur] at h
      cases hp : m.heap[p]? with
      | none => simp [hp] at h
      | some n =>
        simp only [hp] at h
        split_ifs at h
        · simp only [Option.some.injEq, Prod.mk.injEq] at h
          exact ⟨m.list.cur_node, h.2.symm⟩
        · simp only [Option.some.injEq, Prod.mk.injEq] at h
          exact ⟨m.list.cur_node, h.2.symm⟩
        · obtain ⟨c, hc⟩ := ih _ _ _ h
          exact ⟨c, hc⟩

theorem ncheck_loop_frame (key : List Nat) :
    ∀ (fuel : Nat) (m : Mem) (r : Int) (m1 : Mem),
      OSStore_NCheck_loop key fuel m = some (r, m1) → ∃ c, m1 = m.setCur c := by
  intro fuel
  induction fuel with
  | zero => intro m r m1 h; simp [OSStore_NCheck_loop] at h
  | succ fuel ih =>
    intro m r m1 h
    simp only [OSStore_NCheck_loop] at h
    cases hcur : m.list.cur_node with
    | none =>
      simp only [hcur, Option.some.injEq, Prod.mk.injEq] at h
      exact ⟨m.list.cur_node, h.2.symm⟩
    | some p =>
      simp only [hcur] at h
      cases hp : m.heap[p]? with
      | none => simp [hp] at h
      | some n =>
        simp only [hp] at h
        split_ifs at h
        · simp only [Option.some.injEq, Prod.mk.injEq] at h
          exact ⟨m.list.cur_node, h.2.symm⟩
        · simp only [Option.some.injEq, Prod.mk.injEq] at h
          exact ⟨m.list.cur_node, h.2.symm⟩
        · obtain ⟨c, hc⟩ := ih _ _ _ h
          exact ⟨c, hc⟩

theorem ncaseCheck_loop_frame (key : List Nat) :
    ∀ (fuel : Nat) (m : Mem) (r : Int) (m1 : Mem),
      OSStore_NCaseCheck_loop key fuel m = some (r, m1) → ∃ c, m1 = m.setCur c := by
  intro fuel
  induction fuel with
  | zero => intro m r m1 h; simp [OSStore_NCaseCheck_loop] at h
  | succ fuel ih =>
    intro m r m1 h
    simp only [OSStore_NCaseCheck_loop] at h
    cases hcur : m.list.cur_node with
    | none =>
      simp only [hcur, Option.some.injEq, Prod.mk.injEq] at h
      exact ⟨m.list.cur_node, h.2.symm⟩
    | some p =>
      simp only [hcur] at h
      cases hp : m.heap[p]? with
      | none => simp [hp] at h
      | some n =>
        simp only [hp] at h
        split_ifs at h
        · simp only [Option.some.injEq, Prod.mk.injEq] at h
          exact ⟨m.list.cur_node, h.2.symm⟩
        · obtain ⟨c, hc⟩ := ih _ _ _ h
          exact ⟨c, hc⟩

theorem getPosition_loop_frame (key : List Nat) :
    ∀ (fuel : Nat) (pos : Int) (m : Mem) (r : Int) (m1 : Mem),
      OSStore_GetPosition_loop key fuel pos m = some (r, m1) → ∃ c, m1 = m.setCur c := by
  intro fuel
  induction fuel with
  | zero => intro pos m r m1 h; simp [OSStore_GetPosition_loop] at h
  | succ fuel ih =>
    intro pos m r m1 h
    simp only [OSStore_GetPosition_loop] at h
    cases hcur : m.list.cur_node with
    | none =>
      simp only [hcur, Option.some.injEq, Prod.mk.injEq] at h
      exact ⟨m.list.cur_node, h.2.symm⟩
    | some p =>
      simp only [hcur] at h
      cases hp : m.heap[p]? with
      | none => simp [hp] at h
      | some n =>
        simp only [hp] at h
        split_ifs at h
        · simp only [Option.some.injEq, Prod.mk.injEq] at h
          exact ⟨m.list.cur_node, h.2.symm⟩
        · simp only [Option.some.injEq, Prod.mk.injEq] at h
          exact ⟨m.list.cur_node, h.2.symm⟩
        · obtain ⟨c, hc⟩ := ih _ _ _ _ h
          exact ⟨c, hc⟩

theorem onlyCursorMoved_of_setCur {m m1 : Mem} (h : ∃ c, m1 = (m.setCur m.list.first_node).setCur c) :
    OnlyCursorMoved m m1 := by
  obtain ⟨c, rfl⟩ := h
  exact ⟨rfl, rfl, rfl, rfl, rfl, rfl⟩

theorem strcmp_zero_take {e : List Nat} (he : CStr e) :
    ∀ p : List Nat, strcmp e p = 0 → p.take e.length = e := by
  induction e with
  | nil => intro p _; simp
  | cons a e ih =>
    intro p h
    have ha := (he a (by simp)).1
    have ha0 : a ≠ 0 := by omega
    cases p with
    | nil => simp [strcmp] at h; omega
    | cons b p =>
      simp only [strcmp] at h
      by_cases hab : a = b
      · subst hab
        simp only [ne_eq, not_true_eq_false, if_false, ha0] at h
        simp [ih he.tail p h]
      · simp only [ne_eq, hab, not_false_eq_true, if_true] at h
        omega

theorem checkList_one {key : List Nat} {ns : List OSStoreNode} (h : checkList key ns = 1) :
    ∃ n ∈ ns, strcmp n.key key = 0 := by
  induction ns with
  | nil => simp [checkList] at h
  | cons n ns ih =>
    simp only [checkList] at h
    split_ifs at h with h1 h2
    · exact ⟨n, by simp, h2⟩
    · exact absurd h (by decide)
    · obtain ⟨x, hx, hx0⟩ := ih h
      exact ⟨x, by simp [hx], hx0⟩

/-! ## The contract -/

theorem put_calloc_failure (list : Option Mem) (key : List Nat) (data : Nat) :
    OSStore_Put false list key data = some (0, list) := rfl

/-- C1 (order invariant): after any sequence of `OSStore_Put` calls on a store
returned by `OSStore_Create`, the traversal from `first_node` along `next`
terminates and yields keys in strictly ascending `strcmp` order; in
particular no two linked entries have equal keys. -/
theorem put_keeps_keys_ascending (ops : List (List Nat × Nat)) (hops : CStrKeys ops) :
    ∃ m ns, fromPuts ops = some m ∧ traverse m = some ns ∧
      Ascending (ns.map OSStoreNode.key) ∧ (ns.map OSStoreNode.key).Nodup := by
  obtain ⟨m, cs, ns, e, _, _, ht, hns, _, _, _, _⟩ := fromPuts_spec ops
  obtain ⟨h1, h2, _, _⟩ := putsList_spec hops
  have hkeys : ns.map OSStoreNode.key = (putsList ops).map Prod.fst := by
    rw [← hns, map_entry_fst]
  refine ⟨m, ns, e, ht, by rw [hkeys]; exact h2, ?_⟩
  rw [hkeys]
  refine ascending_nodup ?_ h2
  intro k hk
  obtain ⟨p, hp, rfl⟩ := List.mem_map.1 hk
  exact h1 p hp

theorem put_keeps_keys_ascending_witness :
    ∃ m ns, fromPuts [([98, 111, 98], 1), ([97, 108], 2), ([99], 3)] = some m ∧
      traverse m = some ns ∧
      Ascending (ns.map OSStoreNode.key) ∧ (ns.map OSStoreNode.key).Nodup :=
  put_keeps_keys_ascending [([98, 111, 98], 1), ([97, 108], 2), ([99], 3)] (by decide)

/-- C2 (insertion of a new key): on a store reached by `Put` calls, putting a
key that is not present returns 1, increases `currently_size` by exactly 1,
and the new entry sequence is the old one with `(key, data)` spliced in right
before the first entry whose key is greater (at the end when there is none);
the old entries keep their content and order, and on an empty store the new
node is both `first_node` and `last_node`. -/
theorem put_new_key (ops : List (List Nat × Nat)) (m : Mem) (es : List (List Nat × Nat))
    (key : List Nat) (data : Nat) (hops : CStrKeys ops) (hk : CStr key)
    (hm : fromPuts ops = some m) (hes : entries m = some es)
    (hnew : key ∉ es.map Prod.fst) :
    ∃ m1, OSStore_Put true (some m) key data = some (1, some m1) ∧
      m1.list.currently_size = m.list.currently_size + 1 ∧
      entries m1 = some
        (es.takeWhile (fun e => decide (¬ 0 < strcmp e.1 key)) ++
          (key, data) :: es.dropWhile (fun e => decide (¬ 0 < strcmp e.1 key))) ∧
      (∃ es1, entries m1 = some es1 ∧ List.Sublist es es1) ∧
      (es = [] → ∃ p n, m1.list.first_node = some p ∧ m1.list.last_node = some p ∧
        m1.heap[p]? = some n ∧ n.entry = (key, data)) := by
  obtain ⟨cs, ns, hi, hcs, _, _, _, _⟩ := reach hm
  have hes1 : es = cs.map Prod.snd := by
    rw [entries_of_inv hi, Option.some.injEq] at hes
    exact hes.symm
  obtain ⟨m1, cs1, e1, hi1, hcs1, _, _⟩ := put_spec hi key data
  have hesc : CStrKeys es := by rw [hes1, hcs]; exact (putsList_spec hops).1
  have hput := putList_of_not_mem data hk hesc hnew
  rw [← hes1] at hcs1
  refine ⟨m1, e1, ?_, ?_, ⟨_, entries_of_inv hi1, ?_⟩, ?_⟩
  · have hl : cs1.length = cs.length + 1 := by
      have h1 := congrArg List.length hcs1
      have h2 := congrArg List.length hes1
      rw [hput] at h1
      have h3 := congrArg List.length (List.takeWhile_append_dropWhile
        (fun e => decide (¬ 0 < strcmp e.1 key)) es)
      simp only [List.length_map, List.length_append, List.length_cons] at h1 h2 h3
      omega
    rw [hi1.2.2, hi.2.2, hl]
    push_cast
    rfl
  · rw [entries_of_inv hi1, hcs1, hput]
  · rw [hcs1]
    exact sublist_putList key data es
  · intro hnil
    subst hnil
    simp only [putList] at hcs1
    rcases cs1 with _ | ⟨c, _ | ⟨d, rest⟩⟩
    · simp at hcs1
    · obtain ⟨hf, n, hn, hne, _, _, _, hl⟩ := hi1.1
      simp only [List.map_cons, List.map_nil, List.cons.injEq, and_true] at hcs1
      exact ⟨c.1, n, hf, hl, hn, by rw [hne, hcs1]⟩
    · simp at hcs1

theorem put_new_key_witness :
    (∃ m1, OSStore_Put true
        (some { heap := [{ next := none, prev := none, key := [98], key_size := 1, data := 1 }]
                list := { first_node := some 0, last_node := some 0, cur_node := none,
                          currently_size := 1, max_size := 0, free_data_function := 0 } })
        [97] 2 = some (1, some m1) ∧
      m1.list.currently_size = 1 + 1 ∧
      entries m1 = some [([97], 2), ([98], 1)] ∧
      (∃ es1, entries m1 = some es1 ∧ List.Sublist [([98], 1)] es1) ∧
      (([([98], 1)] : List (List Nat × Nat)) = [] →
        ∃ p n, m1.list.first_node = some p ∧ m1.list.last_node = some p ∧
          m1.heap[p]? = some n ∧ n.entry = ([97], 2))) ∧
    (∃ m1, OSStore_Put true (OSStore_Create true) [97] 2 = some (1, some m1) ∧
      m1.list.currently_size = 0 + 1 ∧
      entries m1 = some [([97], 2)] ∧
      (∃ es1, entries m1 = some es1 ∧ List.Sublist [] es1) ∧
      (([] : List (List Nat × Nat)) = [] →
        ∃ p n, m1.list.first_node = some p ∧ m1.list.last_node = some p ∧
          m1.heap[p]? = some n ∧ n.entry = ([97], 2))) :=
  ⟨put_new_key [([98], 1)] _ [([98], 1)] [97] 2 (by decide) (by decide) rfl rfl (by decide),
    put_new_key [] _ [] [97] 2 (by decide) (by decide) rfl rfl (by decide)⟩

/-- C3 (duplicate insertion): on a store reached by `Put` calls, putting a key
that is already present returns 1 whatever the new value, leaves
`currently_size` and the entry sequence unchanged, and `OSStore_Get` of that
key afterwards returns the value given at the first `Put` of the key. -/
theorem put_duplicate_key (ops : List (List Nat × Nat)) (m : Mem)
    (es : List (List Nat × Nat)) (key : List Nat) (v2 : Nat) (hops : CStrKeys ops)
    (hm : fromPuts ops = some m) (hes : entries m = some es)
    (hmem : key ∈ es.map Prod.fst) :
    ∃ m1 v m2, OSStore_Put true (some m) key v2 = some (1, some m1) ∧
      m1.list.currently_size = m.list.currently_size ∧
      entries m1 = some es ∧
      firstValue key ops = some v ∧ OSStore_Get (some m1) key = some (v, m2) := by
  obtain ⟨cs, ns, hi, hcs, _, _, _, _⟩ := reach hm
  have hes1 : es = cs.map Prod.snd := by
    rw [entries_of_inv hi, Option.some.injEq] at hes
    exact hes.symm
  obtain ⟨h1, h2, _, h4⟩ := putsList_spec hops
  have hes2 : es = putsList ops := by rw [hes1, hcs]
  obtain ⟨m1, cs1, e1, hi1, hcs1, _, _⟩ := put_spec hi key v2
  rw [← hes1, putList_of_mem v2 (hes2 ▸ h1) (hes2 ▸ h2) hmem] at hcs1
  obtain ⟨ns1, ht1, hns1, _⟩ := traverse_of_inv hi1
  rw [hcs1] at hns1
  obtain ⟨hc, hkeys⟩ := nodes_of_entries hns1 (hes2 ▸ h1)
  obtain ⟨c, hget⟩ := get_eq ht1 key
  obtain ⟨hfv, _, _⟩ := scans_present key hc
    (by rw [hkeys, hes2]; exact h2) (by rw [hkeys]; exact hmem)
  refine ⟨m1, getList key ns1, _, e1, ?_, ?_, ?_, hget⟩
  · have hl : cs1.length = cs.length := by
      have h5 := congrArg List.length hcs1
      have h6 := congrArg List.length hes1
      simp only [List.length_map] at h5 h6
      omega
    rw [hi1.2.2, hi.2.2, hl]
  · rw [entries_of_inv hi1, hcs1]
  · rw [← h4 key, ← hes2, ← hns1]
    exact hfv

theorem put_duplicate_key_witness :
    ∃ m1 v m2, OSStore_Put true
        (some { heap := [{ next := none, prev := none, key := [98], key_size := 1, data := 1 }]
                list := { first_node := some 0, last_node := some 0, cur_node := none,
                          currently_size := 1, max_size := 0, free_data_function := 0 } })
        [98] 4 = some (1, some m1) ∧
      m1.list.currently_size = 1 ∧
      entries m1 = some [([98], 1)] ∧
      firstValue [98] [([98], 1)] = some v ∧ OSStore_Get (some m1) [98] = some (v, m2) :=
  put_duplicate_key [([98], 1)] _ [([98], 1)] [98] 4 (by decide) rfl rfl (by decide)

/-- C4, as stated, fails: with `Put("k", 1)` followed by `Put("k", 2)` the pair
`("k", 2)` has no later `Put` of the same key, yet `OSStore_Get` returns 1. -/
theorem roundtrip_last_put_counterexample :
    ¬ (∀ (ops pre post : List (List Nat × Nat)) (k : List Nat) (v : Nat),
        CStrKeys ops → ops = pre ++ (k, v) :: post → (∀ p ∈ post, p.1 ≠ k) →
        ∃ m m1 m2, fromPuts ops = some m ∧ OSStore_Get (some m) k = some (v, m1) ∧
          OSStore_Check (some m) k = some (1, m2)) := by
  intro h
  obtain ⟨m, m1, m2, hm, hg, _⟩ :=
    h [([107], 1), ([107], 2)] [([107], 1)] [] [107] 2 (by decide) rfl (by simp)
  rw [← hm] at hg
  have h1 : (OSStore_Get (fromPuts [([107], 1), ([107], 2)]) [107]).map Prod.fst = some 2 := by
    rw [hg]; rfl
  revert h1
  decide

/-- C4 (round-trip, amended): for every pair `(key, value)` of a sequence of
`Put` calls such that no earlier `Put` of the sequence uses the same key,
`OSStore_Get` on the final store returns exactly that value and
`OSStore_Check` returns 1. -/
theorem roundtrip_first_put (ops pre post : List (List Nat × Nat)) (k : List Nat) (v : Nat)
    (hops : CStrKeys ops) (hsplit : ops = pre ++ (k, v) :: post)
    (hfirst : ∀ p ∈ pre, p.1 ≠ k) :
    ∃ m m1 m2, fromPuts ops = some m ∧ OSStore_Get (some m) k = some (v, m1) ∧
      OSStore_Check (some m) k = some (1, m2) := by
  obtain ⟨m, _, _, hm, _⟩ := fromPuts_spec ops
  obtain ⟨ns, ht, _, hns, hasc, hmem, hfv⟩ := reach_nodes hops hm
  have hk : k ∈ ns.map OSStoreNode.key := by
    rw [hmem k, hsplit]; simp
  obtain ⟨h1, h2, _⟩ := scans_present k (fun n hn => (hns n hn).1) hasc hk
  have hv : firstValue k ops = some v := by
    rw [hsplit, firstValue_append_of_not_mem hfirst]
    simp [firstValue]
  rw [hfv k, hv, Option.some.injEq] at h1
  obtain ⟨c1, hg⟩ := get_eq ht k
  obtain ⟨c2, hc⟩ := check_eq ht k
  rw [← h1] at hg
  rw [h2] at hc
  exact ⟨m, _, _, hm, hg, hc⟩

theorem roundtrip_first_put_witness :
    ∃ m m1 m2, fromPuts [([107], 1), ([106], 5), ([107], 2)] = some m ∧
      OSStore_Get (some m) [107] = some (1, m1) ∧
      OSStore_Check (some m) [107] = some (1, m2) :=
  roundtrip_first_put [([107], 1), ([106], 5), ([107], 2)] [] [([106], 5), ([107], 2)]
    [107] 1 (by decide) rfl (by simp)

/-- C5 (absence): on every store reached by `Put` calls, the empty one
included, a key that was never put is reported absent: `OSStore_Get` returns
`NULL`, `OSStore_Check` returns 0 and `OSStore_GetPosition` returns 0. -/
theorem absent_key (ops : List (List Nat × Nat)) (key : List Nat) (hops : CStrKeys ops)
    (hk : CStr key) (habs : ∀ p ∈ ops, p.1 ≠ key) :
    ∃ m m1 m2 m3, fromPuts ops = some m ∧ OSStore_Get (some m) key = some (0, m1) ∧
      OSStore_Check (some m) key = some (0, m2) ∧
      OSStore_GetPosition (some m) key = some (0, m3) := by
  obtain ⟨m, _, _, hm, _⟩ := fromPuts_spec ops
  obtain ⟨ns, ht, _, hns, _, hmem, _⟩ := reach_nodes hops hm
  have hnk : key ∉ ns.map OSStoreNode.key := by
    rw [hmem key]
    intro h
    obtain ⟨p, hp, hpk⟩ := List.mem_map.1 h
    exact habs p hp hpk
  obtain ⟨h1, h2, h3⟩ := scans_absent hk (fun n hn => (hns n hn).1) hnk
  obtain ⟨c1, hg⟩ := get_eq ht key
  obtain ⟨c2, hc⟩ := check_eq ht key
  obtain ⟨c3, hp⟩ := getPosition_eq ht key
  rw [h1] at hg
  rw [h2] at hc
  rw [h3 1] at hp
  exact ⟨m, _, _, _, hm, hg, hc, hp⟩

theorem absent_key_witness :
    ∃ m m1 m2 m3, fromPuts [([98, 111, 98], 1), ([97], 2)] = some m ∧
      OSStore_Get (some m) [100, 97, 118, 101] = some (0, m1) ∧
      OSStore_Check (some m) [100, 97, 118, 101] = some (0, m2) ∧
      OSStore_GetPosition (some m) [100, 97, 118, 101] = some (0, m3) :=
  absent_key [([98, 111, 98], 1), ([97], 2)] [100, 97, 118, 101] (by decide) (by decide)
    (by decide)

/-- C6 (position correctness): after putting pairwise distinct keys in any
order, `OSStore_GetPosition` of one of them returns its 1-based rank in
ascending byte-wise order among the keys. -/
theorem position_is_rank (ops : List (List Nat × Nat)) (k : List Nat) (hops : CStrKeys ops)
    (hnd : (ops.map Prod.fst).Nodup) (hk : k ∈ ops.map Prod.fst) :
    ∃ m m1, fromPuts ops = some m ∧
      OSStore_GetPosition (some m) k = some (rank k (ops.map Prod.fst), m1) := by
  obtain ⟨m, _, _, hm, _⟩ := fromPuts_spec ops
  obtain ⟨ns, ht, _, hns, hasc, hmem, _⟩ := reach_nodes hops hm
  have hkn : k ∈ ns.map OSStoreNode.key := (hmem k).2 hk
  obtain ⟨_, _, h3⟩ := scans_present k (fun n hn => (hns n hn).1) hasc hkn
  have hndn : (ns.map OSStoreNode.key).Nodup := by
    refine ascending_nodup ?_ hasc
    intro x hx
    obtain ⟨n, hn, rfl⟩ := List.mem_map.1 hx
    exact (hns n hn).1
  have hperm : List.Perm (ns.map OSStoreNode.key) (ops.map Prod.fst) :=
    (List.perm_ext_iff_of_nodup hndn hnd).2 hmem
  have hlen := (hperm.filter (fun x => decide (strcmp x k < 0))).length_eq
  obtain ⟨c, hp⟩ := getPosition_eq ht k
  refine ⟨m, m.setCur c, hm, ?_⟩
  rw [hp, h3 1, hlen]
  simp only [rank]
  rw [add_comm]

theorem position_is_rank_witness :
    ∃ m m1, fromPuts [([98, 111, 98], 1), ([97, 108, 105, 99, 101], 2),
        ([99, 97, 114, 111, 108], 3)] = some m ∧
      OSStore_GetPosition (some m) [98, 111, 98] = some (2, m1) :=
  position_is_rank [([98, 111, 98], 1), ([97, 108, 105, 99, 101], 2),
    ([99, 97, 114, 111, 108], 3)] [98, 111, 98] (by decide) (by decide) (by decide)

/-- C7 (prefix check): on every store reached by `Put` calls,
`OSStore_NCheck` returns 1 exactly when some stored key equals the first
`key_size` bytes of the probe, and 0 otherwise, so the early return of the
ordered scan hides no match; with the single entry "ab" the probe "abc" gives
1, and with the single entry "abc" the probe "ab" gives 0. -/
theorem ncheck_is_stored_prefix :
    (∀ (ops : List (List Nat × Nat)) (probe : List Nat), CStrKeys ops →
      ∃ m ns r m1, fromPuts ops = some m ∧ traverse m = some ns ∧
        OSStore_NCheck (some m) probe = some (r, m1) ∧ (r = 1 ∨ r = 0) ∧
        (r = 1 ↔ ∃ n ∈ ns, probe.take n.key_size = n.key)) ∧
    (OSStore_NCheck (fromPuts [([97, 98], 1)]) [97, 98, 99]).map Prod.fst = some 1 ∧
    (OSStore_NCheck (fromPuts [([97, 98, 99], 1)]) [97, 98]).map Prod.fst = some 0 := by
  refine ⟨?_, by decide, by decide⟩
  intro ops probe hops
  obtain ⟨m, _, _, hm, _⟩ := fromPuts_spec ops
  obtain ⟨ns, ht, _, hns, hasc, _, _⟩ := reach_nodes hops hm
  obtain ⟨c, hc⟩ := ncheck_eq ht probe
  obtain ⟨h1, h2⟩ := ncheckList_spec probe hns hasc
  exact ⟨m, ns, _, _, hm, ht, hc, h1, h2⟩

theorem ncheck_is_stored_prefix_witness :
    ∃ m ns r m1, fromPuts [([97, 98], 1), ([97], 2), ([97, 99], 3)] = some m ∧
      traverse m = some ns ∧
      OSStore_NCheck (some m) [97, 98, 99] = some (r, m1) ∧ (r = 1 ∨ r = 0) ∧
      (r = 1 ↔ ∃ n ∈ ns, ([97, 98, 99] : List Nat).take n.key_size = n.key) :=
  ncheck_is_stored_prefix.1 [([97, 98], 1), ([97], 2), ([97, 99], 3)] [97, 98, 99] (by decide)

/-- C8 (case-insensitive completeness): on every store whose chain is well
formed, whatever the order of its entries, `OSStore_NCaseCheck` returns 1
exactly when some stored key equals, under ASCII case folding, the first
`key_size` bytes of the probe, and 0 otherwise; hence once "Key" has been put,
the probe "key" gives 1 whatever else is stored. -/
theorem ncasecheck_scans_whole_chain :
    (∀ (m : Mem) (ns : List OSStoreNode) (probe : List Nat), traverse m = some ns →
      (∀ n ∈ ns, CStr n.key ∧ n.key_size = n.key.length) →
      ∃ r m1, OSStore_NCaseCheck (some m) probe = some (r, m1) ∧ (r = 1 ∨ r = 0) ∧
        (r = 1 ↔ ∃ n ∈ ns, (probe.take n.key_size).map tolower = n.key.map tolower)) ∧
    (∀ (ops : List (List Nat × Nat)), CStrKeys ops → [75, 101, 121] ∈ ops.map Prod.fst →
      ∃ m m1, fromPuts ops = some m ∧
        OSStore_NCaseCheck (some m) [107, 101, 121] = some (1, m1)) := by
  constructor
  · intro m ns probe ht hns
    obtain ⟨c, hc⟩ := ncaseCheck_eq ht probe
    obtain ⟨h1, h2⟩ := ncaseCheckList_spec probe hns
    exact ⟨_, _, hc, h1, h2⟩
  · intro ops hops hkey
    obtain ⟨m, _, _, hm, _⟩ := fromPuts_spec ops
    obtain ⟨ns, ht, _, hns, _, hmem, _⟩ := reach_nodes hops hm
    obtain ⟨c, hc⟩ := ncaseCheck_eq ht [107, 101, 121]
    obtain ⟨_, h2⟩ := ncaseCheckList_spec [107, 101, 121] hns
    obtain ⟨n, hn, hnk⟩ := List.mem_map.1 ((hmem _).2 hkey)
    have h1 : ncaseCheckList [107, 101, 121] ns = 1 := by
      refine h2.2 ⟨n, hn, ?_⟩
      rw [(hns n hn).2, hnk]
      decide
    rw [h1] at hc
    exact ⟨m, _, hm, hc⟩

theorem ncasecheck_scans_whole_chain_witness :
    (∃ r m1, OSStore_NCaseCheck
        (some { heap := [{ next := some 1, prev := none, key := [122], key_size := 1, data := 1 },
                         { next := none, prev := some 0, key := [75, 101, 121], key_size := 3,
                           data := 2 }]
                list := { first_node := some 0, last_node := some 1, cur_node := none,
                          currently_size := 2, max_size := 0, free_data_function := 0 } })
        [107, 101, 121, 115] = some (r, m1) ∧ (r = 1 ∨ r = 0) ∧
      (r = 1 ↔ ∃ n ∈ [({ next := some 1, prev := none, key := [122], key_size := 1,
                          data := 1 } : OSStoreNode),
                       { next := none, prev := some 0, key := [75, 101, 121], key_size := 3,
                         data := 2 }],
        (([107, 101, 121, 115] : List Nat).take n.key_size).map tolower =
          n.key.map tolower)) ∧
    (∃ m m1, fromPuts [([97], 1), ([75, 101, 121], 2), ([122], 3)] = some m ∧
      OSStore_NCaseCheck (some m) [107, 101, 121] = some (1, m1)) :=
  ⟨ncasecheck_scans_whole_chain.1 _ _ [107, 101, 121, 115] rfl (by decide),
    ncasecheck_scans_whole_chain.2 [([97], 1), ([75, 101, 121], 2), ([122], 3)] (by decide)
      (by decide)⟩

/-- C9, as stated, fails: after `Put("k", NULL)` the key is present, yet
`OSStore_Get` returns `NULL`, the same result as for an absent key. -/
theorem get_null_value_counterexample :
    ¬ (∀ (ops : List (List Nat × Nat)) (key : List Nat) (m m1 : Mem) (v : Nat),
        CStrKeys ops → CStr key → fromPuts ops = some m →
        OSStore_Get (some m) key = some (v, m1) → v = 0 → ∀ p ∈ ops, p.1 ≠ key) := by
  intro h
  exact h [([107], 0)] [107] _ _ 0 (by decide) (by decide) rfl rfl rfl ([107], 0)
    (by simp) rfl

/-- C9 (not-found, amended): on every store reached by `Put` calls,
`OSStore_Get` returns the value given at the first `Put` of the key when the
key is present and `NULL` when it is not; so the result is `NULL` exactly when
no entry with that key exists or the stored value is itself `NULL`. -/
theorem get_null_iff_absent_or_null (ops : List (List Nat × Nat)) (key : List Nat)
    (hops : CStrKeys ops) (hk : CStr key) :
    ∃ m m1, fromPuts ops = some m ∧
      OSStore_Get (some m) key = some ((firstValue key ops).getD 0, m1) ∧
      ((firstValue key ops).getD 0 = 0 ↔
        (∀ p ∈ ops, p.1 ≠ key) ∨ firstValue key ops = some 0) := by
  obtain ⟨m, _, _, hm, _⟩ := fromPuts_spec ops
  obtain ⟨ns, ht, _, hns, hasc, hmem, hfv⟩ := reach_nodes hops hm
  obtain ⟨c, hg⟩ := get_eq ht key
  have hval : getList key ns = (firstValue key ops).getD 0 := by
    by_cases hkn : key ∈ ns.map OSStoreNode.key
    · obtain ⟨h1, _, _⟩ := scans_present key (fun n hn => (hns n hn).1) hasc hkn
      rw [← hfv key, h1]
      rfl
    · obtain ⟨h1, _, _⟩ := scans_absent hk (fun n hn => (hns n hn).1) hkn
      have h2 : firstValue key ops = none := by
        rw [firstValue_eq_none_iff, ← hmem key]
        exact hkn
      rw [h1, h2]
      rfl
  rw [hval] at hg
  refine ⟨m, _, hm, hg, ?_⟩
  have habs : (∀ p ∈ ops, p.1 ≠ key) ↔ firstValue key ops = none := by
    rw [firstValue_eq_none_iff]
    constructor
    · intro h hc
      obtain ⟨p, hp, hpk⟩ := List.mem_map.1 hc
      exact h p hp hpk
    · intro h p hp hpk
      exact h (List.mem_map.2 ⟨p, hp, hpk⟩)
  rw [habs]
  cases hf : firstValue key ops with
  | none => simp
  | some v => simp

theorem get_null_iff_absent_or_null_witness :
    ∃ m m1, fromPuts [([107], 0), ([106], 7)] = some m ∧
      OSStore_Get (some m) [107] =
        some ((firstValue [107] [([107], 0), ([106], 7)]).getD 0, m1) ∧
      ((firstValue [107] [([107], 0), ([106], 7)]).getD 0 = 0 ↔
        (∀ p ∈ [(([107], 0) : List Nat × Nat), ([106], 7)], p.1 ≠ [107]) ∨
          firstValue [107] [([107], 0), ([106], 7)] = some 0) :=
  get_null_iff_absent_or_null [([107], 0), ([106], 7)] [107] (by decide) (by decide)

/-- C10 (`OSStore_SetMaxSize`): on a non-null store the call returns 1 exactly
when `n >= 2`, and then only `max_size` changes, to `n`; for `n <= 1` it
returns 0 and the store is unchanged; on a null store it returns 0. -/
theorem setMaxSize_accepts_from_two (m : Mem) (n : Int) :
    (2 ≤ n → OSStore_SetMaxSize (some m) n =
      (1, some { m with list := { m.list with max_size := n } })) ∧
    (n ≤ 1 → OSStore_SetMaxSize (some m) n = (0, some m)) ∧
    ((OSStore_SetMaxSize (some m) n).1 = 1 ↔ 2 ≤ n) ∧
    OSStore_SetMaxSize none n = (0, none) := by
  refine ⟨fun h => ?_, fun h => ?_, ?_, rfl⟩
  · have : ¬ n ≤ 1 := by omega
    simp [OSStore_SetMaxSize, this]
  · simp [OSStore_SetMaxSize, h]
  · by_cases h : n ≤ 1
    · simp [OSStore_SetMaxSize, h]; omega
    · simp [OSStore_SetMaxSize, h]; omega

theorem setMaxSize_accepts_from_two_witness :
    OSStore_SetMaxSize (OSStore_Create true) 2 =
      (1, some { heap := []
                 list := { first_node := none, last_node := none, cur_node := none,
                           currently_size := 0, max_size := 2, free_data_function := 0 } }) ∧
    OSStore_SetMaxSize (OSStore_Create true) 1 = (0, OSStore_Create true) :=
  ⟨(setMaxSize_accepts_from_two _ 2).1 (by decide),
    (setMaxSize_accepts_from_two _ 1).2.1 (by decide)⟩

/-- C11 (null store handles): `OSStore_SetMaxSize` and
`OSStore_SetFreeDataPointer` test the handle and return 0 on `NULL` without
touching it, and `OSStore_Put` returns 0 when its allocation fails; the
lookups, and `OSStore_Put` once its allocation has succeeded, dereference the
`NULL` handle in their first statement, which is an invalid dereference
(result `none`) and not a returned failure value. -/
theorem null_handle_is_dereferenced (key : List Nat) (data : Nat) (n : Int) (f : Nat) :
    OSStore_SetMaxSize none n = (0, none) ∧
    OSStore_SetFreeDataPointer none f = (0, none) ∧
    OSStore_Put false none key data = some (0, none) ∧
    OSStore_Put true none key data = none ∧
    OSStore_Get none key = none ∧
    OSStore_GetPosition none key = none ∧
    OSStore_Check none key = none ∧
    OSStore_NCheck none key = none ∧
    OSStore_NCaseCheck none key = none :=
  ⟨rfl, rfl, rfl, rfl, rfl, rfl, rfl, rfl, rfl⟩

/-- C12 (the size bound is advisory): take a store reached by any calls, the
last `OSStore_SetMaxSize` among them being a successful one with bound `n`
(`n >= 2`), that already holds at least `n` entries.  It still records
`max_size = n`; putting a key that is not present returns 1, splices the entry
in, increments `currently_size` beyond `n` and keeps every old entry; and no
`Put` changes `max_size`. -/
theorem put_beyond_max_size (pre post : List Call) (m : Mem) (es : List (List Nat × Nat))
    (key : List Nat) (data : Nat) (n : Int)
    (hcalls : CStrKeys (putsOf (pre ++ Call.SetMaxSize n :: post))) (hk : CStr key)
    (hm : callAll (OSStore_Create true) (pre ++ Call.SetMaxSize n :: post) = some m)
    (hn : 2 ≤ n) (hpost : ∀ c ∈ post, ∀ x, c ≠ Call.SetMaxSize x)
    (hfull : n ≤ m.list.currently_size)
    (hes : entries m = some es) (hnew : key ∉ es.map Prod.fst) :
    m.list.max_size = n ∧
    (∃ m1, OSStore_Put true (some m) key data = some (1, some m1) ∧
      m1.list.currently_size = m.list.currently_size + 1 ∧
      n < m1.list.currently_size ∧
      entries m1 = some
        (es.takeWhile (fun e => decide (¬ 0 < strcmp e.1 key)) ++
          (key, data) :: es.dropWhile (fun e => decide (¬ 0 < strcmp e.1 key))) ∧
      (∃ es1, entries m1 = some es1 ∧ List.Sublist es es1) ∧
      m1.list.max_size = n) ∧
    (∀ (k : List Nat) (d : Nat), ∃ r m2,
      OSStore_Put true (some m) k d = some (r, some m2) ∧ m2.list.max_size = n) := by
  obtain ⟨cs, hi, hcs⟩ := callAll_reach hm
  have hmax : m.list.max_size = n := by
    obtain ⟨m0, cs0, e0, hi0, _⟩ := callAll_spec pre
    rw [callAll_append, e0] at hm
    have hnot : ¬ n ≤ 1 := by omega
    have hset : callAll (some m0) (Call.SetMaxSize n :: post) =
        callAll (some { m0 with list := { m0.list with max_size := n } }) post := by
      simp [callAll, call, OSStore_SetMaxSize, hnot]
    rw [hset] at hm
    have hi1 : Inv { m0 with list := { m0.list with max_size := n } } cs0 :=
      ⟨hi0.1, hi0.2.1, hi0.2.2⟩
    obtain ⟨m2, _, e2, _, _, hmx⟩ := callAll_inv post hi1
    rw [hm, Option.some.injEq] at e2
    subst e2
    exact hmx hpost
  have hes1 : es = cs.map Prod.snd := by
    rw [entries_of_inv hi, Option.some.injEq] at hes
    exact hes.symm
  have hesc : CStrKeys (cs.map Prod.snd) := by rw [hcs]; exact (putsList_spec hcalls).1
  refine ⟨hmax, ?_, ?_⟩
  · obtain ⟨m1, cs1, e1, hi1, hcs1, hcs2, hsz, hmx, _⟩ :=
      put_new_of_inv hi data hk hesc (hes1 ▸ hnew)
    refine ⟨m1, e1, hsz, by omega, ?_, ⟨_, entries_of_inv hi1, ?_⟩, hmx.trans hmax⟩
    · rw [entries_of_inv hi1, hcs1, hes1]
    · rw [hcs2, hes1]
      exact sublist_putList key data _
  · intro k d
    obtain ⟨m2, _, e2, _, _, hmx, _⟩ := put_spec hi k d
    exact ⟨1, m2, e2, hmx.trans hmax⟩

theorem put_beyond_max_size_witness :
    (callAll (OSStore_Create true)
      [Call.Put true [98] 1, Call.SetMaxSize 2, Call.Put true [97] 2, Call.Get [98]]).map
        (fun m => m.list.max_size) = some 2 ∧
    (∃ m1, OSStore_Put true
        (callAll (OSStore_Create true)
          [Call.Put true [98] 1, Call.SetMaxSize 2, Call.Put true [97] 2, Call.Get [98]])
        [99] 3 = some (1, some m1) ∧
      m1.list.currently_size = 2 + 1 ∧
      2 < m1.list.currently_size ∧
      entries m1 = some [([97], 2), ([98], 1), ([99], 3)] ∧
      (∃ es1, entries m1 = some es1 ∧ List.Sublist [([97], 2), ([98], 1)] es1) ∧
      m1.list.max_size = 2) ∧
    (∀ (k : List Nat) (d : Nat), ∃ r m2,
      OSStore_Put true
        (callAll (OSStore_Create true)
          [Call.Put true [98] 1, Call.SetMaxSize 2, Call.Put true [97] 2, Call.Get [98]])
        k d = some (r, some m2) ∧ m2.list.max_size = 2) :=
  have h := put_beyond_max_size [Call.Put true [98] 1] [Call.Put true [97] 2, Call.Get [98]] _
    [([97], 2), ([98], 1)] [99] 3 2 (by decide) (by decide) rfl (by decide)
    (by intro c hc x; simp at hc; rcases hc with rfl | rfl <;> simp)
    (by decide) rfl (by decide)
  ⟨congrArg some h.1, h.2.1, h.2.2⟩

/-- C13 (size invariant): after any sequence of `OSStore_Put` (with or
without a successful allocation), `OSStore_SetMaxSize`,
`OSStore_SetFreeDataPointer`, `OSStore_Delete` and lookup calls on a store
returned by `OSStore_Create`, the traversal from `first_node` terminates and
`currently_size` equals the number of nodes it meets; for the fresh store
that number is 0. -/
theorem size_counts_linked_entries :
    (∀ calls : List Call, ∃ m ns, callAll (OSStore_Create true) calls = some m ∧
      traverse m = some ns ∧ m.list.currently_size = (ns.length : Int)) ∧
    (∃ m, OSStore_Create true = some m ∧ traverse m = some [] ∧
      m.list.currently_size = 0) := by
  refine ⟨fun calls => ?_, ⟨_, rfl, rfl, rfl⟩⟩
  obtain ⟨m, cs, e, hi, _⟩ := callAll_spec calls
  obtain ⟨ns, ht, hns, _⟩ := traverse_of_inv hi
  refine ⟨m, ns, e, ht, ?_⟩
  have : ns.length = cs.length := by
    have := congrArg List.length hns
    simpa using this
  rw [hi.2.2, this]

/-- C14 (chain consistency): after any sequence of `OSStore_Put` calls, the
forward traversal from `first_node` terminates, its last address is
`last_node` and its first is `first_node` (both `NULL` exactly when it is
empty), the first node has no `prev`, the last node has no `next`, every
linked node `n` with a `next` satisfies `n.next.prev = n`, and the backward
traversal from `last_node` along `prev` is the exact reverse of the forward
one. -/
theorem chain_is_consistent (ops : List (List Nat × Nat)) :
    ∃ m addrs, fromPuts ops = some m ∧ forward m = some addrs ∧
      backward m = some addrs.reverse ∧
      m.list.first_node = addrs.head? ∧ m.list.last_node = addrs.getLast? ∧
      (m.list.first_node = none ↔ m.list.last_node = none) ∧
      (∀ f, m.list.first_node = some f → ∃ n, m.heap[f]? = some n ∧ n.prev = none) ∧
      (∀ l, m.list.last_node = some l → ∃ n, m.heap[l]? = some n ∧ n.next = none) ∧
      (∀ p ∈ addrs, ∃ n, m.heap[p]? = some n ∧
        ∀ q, n.next = some q → ∃ nq, m.heap[q]? = some nq ∧ nq.prev = some p) := by
  obtain ⟨m, cs, _, hm, hi, _⟩ := fromPuts_spec ops
  obtain ⟨h1, h2, h3, h4, h5, h6⟩ := chain_of_inv hi
  refine ⟨m, cs.map Prod.fst, hm, h1, h2, h3, h4, ?_, h5, h6, ?_⟩
  · rw [h3, h4]
    cases cs with
    | nil => simp
    | cons c cs => simp [List.getLast?_eq_getLast]
  · intro p hp
    obtain ⟨c, hc, rfl⟩ := List.mem_map.1 hp
    exact dllseg_adjacent cs hi.1 c hc

/-- C15 (`OSStore_Delete` is inert): the call returns at once, so the store
handle and everything behind it (entries, links, `currently_size`, `max_size`,
`free_data_function`) are what they were, and every lookup gives the same
result as before the call. -/
theorem delete_is_inert (list : Option Mem) (key k : List Nat) :
    OSStore_Delete list key = list ∧
    (OSStore_Delete list key).bind entries = list.bind entries ∧
    (OSStore_Delete list key).map Mem.list = list.map Mem.list ∧
    OSStore_Get (OSStore_Delete list key) k = OSStore_Get list k ∧
    OSStore_GetPosition (OSStore_Delete list key) k = OSStore_GetPosition list k ∧
    OSStore_Check (OSStore_Delete list key) k = OSStore_Check list k ∧
    OSStore_NCheck (OSStore_Delete list key) k = OSStore_NCheck list k ∧
    OSStore_NCaseCheck (OSStore_Delete list key) k = OSStore_NCaseCheck list k :=
  ⟨rfl, rfl, rfl, rfl, rfl, rfl, rfl, rfl⟩

/-- C16 (position shift under insertion): on a store reached by `Put` calls,
for a key `k` that is present and a new key `j` that is not, the position of
`k` reported by `OSStore_GetPosition` after `OSStore_Put` of `j` is the old
position plus 1 when `j` sorts before `k`, and the old position when `j` sorts
after `k`. -/
theorem position_shifts_after_put (ops : List (List Nat × Nat)) (m : Mem)
    (es : List (List Nat × Nat)) (k j : List Nat) (v : Nat) (hops : CStrKeys ops)
    (hj : CStr j) (hm : fromPuts ops = some m) (hes : entries m = some es)
    (hk : k ∈ es.map Prod.fst) (hjn : j ∉ es.map Prod.fst) :
    ∃ pos m0 m1 pos1 m2, OSStore_GetPosition (some m) k = some (pos, m0) ∧
      OSStore_Put true (some m0) j v = some (1, some m1) ∧
      OSStore_GetPosition (some m1) k = some (pos1, m2) ∧ 1 ≤ pos ∧
      (strcmp j k < 0 → pos1 = pos + 1) ∧ (0 < strcmp j k → pos1 = pos) := by
  obtain ⟨cs, ns, hi, hcs, ht, hns, _, _⟩ := reach hm
  have hes1 : es = cs.map Prod.snd := by
    rw [entries_of_inv hi, Option.some.injEq] at hes
    exact hes.symm
  obtain ⟨h1, h2, _, _⟩ := putsList_spec hops
  rw [← hcs, ← hes1] at h1 h2
  obtain ⟨hc, hkeys⟩ := nodes_of_entries (hns.trans (hcs.symm.trans hes1.symm)) h1
  obtain ⟨c, hp⟩ := getPosition_eq ht k
  have hi0 : Inv (m.setCur c) cs := ⟨hi.1, hi.2.1, hi.2.2⟩
  obtain ⟨m1, cs1, e1, hi1, hcs1, hcs2, _, _, _⟩ :=
    put_new_of_inv hi0 v hj (hes1 ▸ h1) (hes1 ▸ hjn)
  rw [← hes1] at hcs1 hcs2
  obtain ⟨ns1, ht1, hns1, _⟩ := traverse_of_inv hi1
  obtain ⟨hc1, hkeys1⟩ := nodes_of_entries (hns1.trans hcs2) (putList_cstr v hj h1)
  obtain ⟨c1, hp1⟩ := getPosition_eq ht1 k
  obtain ⟨_, _, h3⟩ := scans_present k hc (by rw [hkeys]; exact h2) (by rw [hkeys]; exact hk)
  obtain ⟨_, _, h4⟩ := scans_present k hc1
    (by rw [hkeys1]; exact putList_ascending v hj h1 h2)
    (by rw [hkeys1]; exact (List.Sublist.map Prod.fst (sublist_putList j v es)).subset hk)
  refine ⟨_, _, m1, _, _, hp, e1, hp1, ?_, ?_, ?_⟩
  · rw [h3 1]; omega
  all_goals
    intro hlt
    rw [h3 1, h4 1, hkeys, hkeys1, ← hcs2, hcs1]
    conv_rhs => rw [← List.takeWhile_append_dropWhile
      (fun e => decide (¬ 0 < strcmp e.1 j)) es]
    simp only [List.map_append, List.map_cons, List.filter_append, List.filter_cons,
      List.length_append]
    first
      | (have hd : decide (strcmp j k < 0) = true := by simpa using hlt
         simp only [hd, if_true, List.length_cons]
         push_cast
         ring)
      | (have hd : decide (strcmp j k < 0) = false := by simp; omega
         simp only [hd]
         simp)

theorem position_shifts_after_put_witness :
    (∃ pos m0 m1 pos1 m2,
      OSStore_GetPosition (fromPuts [([98], 1), ([100], 2)]) [98] = some (pos, m0) ∧
      OSStore_Put true (some m0) [97] 5 = some (1, some m1) ∧
      OSStore_GetPosition (some m1) [98] = some (pos1, m2) ∧ 1 ≤ pos ∧
      (strcmp [97] [98] < 0 → pos1 = pos + 1) ∧ (0 < strcmp [97] [98] → pos1 = pos)) ∧
    (∃ pos m0 m1 pos1 m2,
      OSStore_GetPosition (fromPuts [([98], 1), ([100], 2)]) [98] = some (pos, m0) ∧
      OSStore_Put true (some m0) [99] 5 = some (1, some m1) ∧
      OSStore_GetPosition (some m1) [98] = some (pos1, m2) ∧ 1 ≤ pos ∧
      (strcmp [99] [98] < 0 → pos1 = pos + 1) ∧ (0 < strcmp [99] [98] → pos1 = pos)) :=
  ⟨position_shifts_after_put [([98], 1), ([100], 2)] _ [([98], 1), ([100], 2)] [98] [97] 5
      (by decide) (by decide) rfl rfl (by decide) (by decide),
    position_shifts_after_put [([98], 1), ([100], 2)] _ [([98], 1), ([100], 2)] [98] [99] 5
      (by decide) (by decide) rfl rfl (by decide) (by decide)⟩

/-- C17 (insertion order does not matter for the keys): after any sequence of
`OSStore_Put` calls the traversed keys are strictly ascending and are a
permutation of the distinct keys that were put (none is lost),
`currently_size` is the number of distinct keys, and every node holds the
value given at the first `Put` of its key; hence a second sequence that puts
the same set of keys yields the same key sequence. -/
theorem keys_are_sorted_distinct_puts (ops ops1 : List (List Nat × Nat))
    (hops : CStrKeys ops) (hops1 : CStrKeys ops1)
    (hsame : ∀ k, k ∈ ops.map Prod.fst ↔ k ∈ ops1.map Prod.fst) :
    ∃ m ns m1 ns1, fromPuts ops = some m ∧ traverse m = some ns ∧
      Ascending (ns.map OSStoreNode.key) ∧
      List.Perm (ns.map OSStoreNode.key) (ops.map Prod.fst).dedup ∧
      m.list.currently_size = ((ops.map Prod.fst).dedup.length : Int) ∧
      (∀ n ∈ ns, firstValue n.key ops = some n.data) ∧
      fromPuts ops1 = some m1 ∧ traverse m1 = some ns1 ∧
      ns1.map OSStoreNode.key = ns.map OSStoreNode.key := by
  obtain ⟨m, _, ns0, hm, _, _, ht0, _, _, hsz, _, _⟩ := fromPuts_spec ops
  obtain ⟨ns, ht, _, hns, hasc, hmem, hfv⟩ := reach_nodes hops hm
  rw [ht0, Option.some.injEq] at ht
  subst ht
  obtain ⟨m1, _, _, hm1, _⟩ := fromPuts_spec ops1
  obtain ⟨ns1, ht1, _, hns1, hasc1, hmem1, _⟩ := reach_nodes hops1 hm1
  have hc : ∀ k ∈ ns0.map OSStoreNode.key, CStr k := by
    intro k hk
    obtain ⟨n, hn, rfl⟩ := List.mem_map.1 hk
    exact (hns n hn).1
  have hc1 : ∀ k ∈ ns1.map OSStoreNode.key, CStr k := by
    intro k hk
    obtain ⟨n, hn, rfl⟩ := List.mem_map.1 hk
    exact (hns1 n hn).1
  have hnd := ascending_nodup hc hasc
  have hperm : List.Perm (ns0.map OSStoreNode.key) (ops.map Prod.fst).dedup :=
    (List.perm_ext_iff_of_nodup hnd (List.nodup_dedup _)).2
      (fun k => by rw [hmem k, List.mem_dedup])
  refine ⟨m, ns0, m1, ns1, hm, ht0, hasc, hperm, ?_, ?_, hm1, ht1, ?_⟩
  · rw [hsz, ← hperm.length_eq, List.length_map]
  · intro n hn
    rw [← hfv n.key]
    have hnd1 : ((ns0.map OSStoreNode.entry).map Prod.fst).Nodup := by
      rw [map_entry_fst]; exact hnd
    exact firstValue_of_mem hnd1 (e := n.entry) (List.mem_map.2 ⟨n, hn, rfl⟩)
  · exact ascending_unique hc1 hasc1 hasc
      (fun k => by rw [hmem1 k, hmem k]; exact (hsame k).symm)

theorem keys_are_sorted_distinct_puts_witness :
    ∃ m ns m1 ns1,
      fromPuts [([98], 1), ([97], 2), ([98], 3), ([99], 4)] = some m ∧
      traverse m = some ns ∧
      Ascending (ns.map OSStoreNode.key) ∧
      List.Perm (ns.map OSStoreNode.key)
        (([([98], 1), ([97], 2), ([98], 3), ([99], 4)] :
          List (List Nat × Nat)).map Prod.fst).dedup ∧
      m.list.currently_size =
        (((([([98], 1), ([97], 2), ([98], 3), ([99], 4)] :
          List (List Nat × Nat)).map Prod.fst).dedup.length : Nat) : Int) ∧
      (∀ n ∈ ns, firstValue n.key [([98], 1), ([97], 2), ([98], 3), ([99], 4)] =
        some n.data) ∧
      fromPuts [([99], 7), ([98], 8), ([97], 9)] = some m1 ∧ traverse m1 = some ns1 ∧
      ns1.map OSStoreNode.key = ns.map OSStoreNode.key :=
  keys_are_sorted_distinct_puts [([98], 1), ([97], 2), ([98], 3), ([99], 4)]
    [([99], 7), ([98], 8), ([97], 9)] (by decide) (by decide) (by intro k; simp; tauto)

/-- C18 (the membership checks form an implication chain): on every store
reached by `Put` calls and for every probe, all three checks return, and
`OSStore_Check` returning 1 implies `OSStore_NCheck` returning 1, which
implies `OSStore_NCaseCheck` returning 1. -/
theorem check_implies_ncheck_implies_ncasecheck (ops : List (List Nat × Nat))
    (probe : List Nat) (hops : CStrKeys ops) :
    ∃ m r1 m1 r2 m2 r3 m3, fromPuts ops = some m ∧
      OSStore_Check (some m) probe = some (r1, m1) ∧
      OSStore_NCheck (some m) probe = some (r2, m2) ∧
      OSStore_NCaseCheck (some m) probe = some (r3, m3) ∧
      (r1 = 1 → r2 = 1) ∧ (r2 = 1 → r3 = 1) := by
  obtain ⟨m, _, _, hm, _⟩ := fromPuts_spec ops
  obtain ⟨ns, ht, _, hns, hasc, _, _⟩ := reach_nodes hops hm
  obtain ⟨c1, h1⟩ := check_eq ht probe
  obtain ⟨c2, h2⟩ := ncheck_eq ht probe
  obtain ⟨c3, h3⟩ := ncaseCheck_eq ht probe
  obtain ⟨_, hn⟩ := ncheckList_spec probe hns hasc
  obtain ⟨_, hnc⟩ := ncaseCheckList_spec probe hns
  refine ⟨m, _, _, _, _, _, _, hm, h1, h2, h3, ?_, ?_⟩
  · intro hr
    obtain ⟨n, hn1, hz⟩ := checkList_one hr
    refine hn.2 ⟨n, hn1, ?_⟩
    rw [(hns n hn1).2]
    exact strcmp_zero_take (hns n hn1).1 probe hz
  · intro hr
    obtain ⟨n, hn1, htake⟩ := hn.1 hr
    exact hnc.2 ⟨n, hn1, by rw [htake]⟩

theorem check_implies_ncheck_implies_ncasecheck_witness :
    ∃ m r1 m1 r2 m2 r3 m3, fromPuts [([97, 98], 1), ([97], 2), ([65, 99], 3)] = some m ∧
      OSStore_Check (some m) [97, 98] = some (r1, m1) ∧
      OSStore_NCheck (some m) [97, 98] = some (r2, m2) ∧
      OSStore_NCaseCheck (some m) [97, 98] = some (r3, m3) ∧
      (r1 = 1 → r2 = 1) ∧ (r2 = 1 → r3 = 1) :=
  check_implies_ncheck_implies_ncasecheck [([97, 98], 1), ([97], 2), ([65, 99], 3)] [97, 98]
    (by decide)

/-- C19 (lookups only move the scan cursor): for every store and key, a lookup
that returns leaves the node heap (keys, values, links), `first_node`,
`last_node`, `currently_size`, `max_size` and `free_data_function` as they
were; its result does not depend on the value `cur_node` had before the call;
and on every store whose chain is well formed each of the five lookups does
return. -/
theorem lookups_only_move_cursor :
    (∀ (m : Mem) (key : List Nat),
      (∀ r m1, OSStore_Get (some m) key = some (r, m1) → OnlyCursorMoved m m1) ∧
      (∀ r m1, OSStore_GetPosition (some m) key = some (r, m1) → OnlyCursorMoved m m1) ∧
      (∀ r m1, OSStore_Check (some m) key = some (r, m1) → OnlyCursorMoved m m1) ∧
      (∀ r m1, OSStore_NCheck (some m) key = some (r, m1) → OnlyCursorMoved m m1) ∧
      (∀ r m1, OSStore_NCaseCheck (some m) key = some (r, m1) → OnlyCursorMoved m m1)) ∧
    (∀ (m : Mem) (x : Option Nat) (key : List Nat),
      OSStore_Get (some (m.setCur x)) key = OSStore_Get (some m) key ∧
      OSStore_GetPosition (some (m.setCur x)) key = OSStore_GetPosition (some m) key ∧
      OSStore_Check (some (m.setCur x)) key = OSStore_Check (some m) key ∧
      OSStore_NCheck (some (m.setCur x)) key = OSStore_NCheck (some m) key ∧
      OSStore_NCaseCheck (some (m.setCur x)) key = OSStore_NCaseCheck (some m) key) ∧
    (∀ (m : Mem) (ns : List OSStoreNode) (key : List Nat), traverse m = some ns →
      (∃ r m1, OSStore_Get (some m) key = some (r, m1)) ∧
      (∃ r m1, OSStore_GetPosition (some m) key = some (r, m1)) ∧
      (∃ r m1, OSStore_Check (some m) key = some (r, m1)) ∧
      (∃ r m1, OSStore_NCheck (some m) key = some (r, m1)) ∧
      (∃ r m1, OSStore_NCaseCheck (some m) key = some (r, m1))) := by
  refine ⟨fun m key => ⟨?_, ?_, ?_, ?_, ?_⟩, fun m x key => ⟨rfl, rfl, rfl, rfl, rfl⟩,
    fun m ns key ht => ⟨?_, ?_, ?_, ?_, ?_⟩⟩
  · intro r m1 h
    exact onlyCursorMoved_of_setCur (get_loop_frame key _ _ r m1 h)
  · intro r m1 h
    exact onlyCursorMoved_of_setCur (getPosition_loop_frame key _ _ _ r m1 h)
  · intro r m1 h
    exact onlyCursorMoved_of_setCur (check_loop_frame key _ _ r m1 h)
  · intro r m1 h
    exact onlyCursorMoved_of_setCur (ncheck_loop_frame key _ _ r m1 h)
  · intro r m1 h
    exact onlyCursorMoved_of_setCur (ncaseCheck_loop_frame key _ _ r m1 h)
  · obtain ⟨c, hc⟩ := get_eq ht key
    exact ⟨_, _, hc⟩
  · obtain ⟨c, hc⟩ := getPosition_eq ht key
    exact ⟨_, _, hc⟩
  · obtain ⟨c, hc⟩ := check_eq ht key
    exact ⟨_, _, hc⟩
  · obtain ⟨c, hc⟩ := ncheck_eq ht key
    exact ⟨_, _, hc⟩
  · obtain ⟨c, hc⟩ := ncaseCheck_eq ht key
    exact ⟨_, _, hc⟩

theorem lookups_only_move_cursor_witness :
    (OnlyCursorMoved
        { heap := [{ next := none, prev := none, key := [98], key_size := 1, data := 7 }]
          list := { first_node := some 0, last_node := some 0, cur_node := none,
                    currently_size := 1, max_size := 0, free_data_function := 0 } }
        { heap := [{ next := none, prev := none, key := [98], key_size := 1, data := 7 }]
          list := { first_node := some 0, last_node := some 0, cur_node := some 0,
                    currently_size := 1, max_size := 0, free_data_function := 0 } }) ∧
    (∃ r m1, OSStore_NCaseCheck
        (some { heap := [{ next := none, prev := none, key := [98], key_size := 1, data := 7 }]
                list := { first_node := some 0, last_node := some 0, cur_node := none,
                          currently_size := 1, max_size := 0, free_data_function := 0 } })
        [66] = some (r, m1)) :=
  ⟨(lookups_only_move_cursor.1 _ [98]).1 7 _ rfl,
    (lookups_only_move_cursor.2.2
      { heap := [{ next := none, prev := none, key := [98], key_size := 1, data := 7 }]
        list := { first_node := some 0, last_node := some 0, cur_node := none,
                  currently_size := 1, max_size := 0, free_data_function := 0 } }
      [{ next := none, prev := none, key := [98], key_size := 1, data := 7 }] [66]
      rfl).2.2.2.2⟩

end StoreOp
